import Mathlib

/-!
# Far-field series expansion for the inverse-power-distance kernel

A shallow embedding of
`fastlib/branches/fastlib-stl/mlpack/series_expansion/inverse_pow_dist_farfield_expansion_impl.cc`.

Conventions of the embedding.

* `double` is an arbitrary linearly ordered field `R` (exact arithmetic); `std::complex<double>`
  is `StdComplex R`, a pair of `R` with the usual componentwise operations.
* `size_t` is a natural number below `2 ^ 64`; subtraction and addition wrap around.  An `int`
  that meets a `size_t` in a comparison is first converted to `size_t`.
* `int` is an integer; the values `order_`, `order`, `truncation_order` range over integers and
  sums such as `max_order + 1` are taken there. Where the range of `int` matters a hypothesis
  bounds the value by `INT_MAX`.
* `ArrayList<T>` and `GenMatrix<T>` are bounded containers.  An access outside the bounds is
  undefined behaviour in the program and `none` in the embedding, so every operation that
  touches a table returns an `Option`.
* The auxiliary object `InversePowDistSeriesExpansionAux` is not part of the translated file: its
  functions and its table of multiplicative constants are fields of a structure and every
  theorem holds for an arbitrary value of that structure.
-/

namespace Fastlib

/-! ## Machine integers -/

/-- Number of values of a `size_t`. -/
def SIZE_MOD : Nat := 18446744073709551616

/-- Conversion of an `int` to `size_t` (modular). -/
def toSizeT (i : Int) : Nat := (i % (SIZE_MOD : Int)).toNat

/-- Addition of two `size_t` values. -/
def sizeAdd (x y : Nat) : Nat := (x + y) % SIZE_MOD

/-- Subtraction of two `size_t` values. -/
def sizeSub (x y : Nat) : Nat := (x + (SIZE_MOD - y % SIZE_MOD)) % SIZE_MOD

/-! ## Complex numbers -/

/-- The type `std::complex<T>`: a real and an imaginary part. -/
@[ext]
structure StdComplex (R : Type) where
  re : R
  im : R
deriving DecidableEq

namespace StdComplex

variable {R : Type}

instance [Zero R] : Zero (StdComplex R) := ⟨⟨0, 0⟩⟩
instance [Zero R] [One R] : One (StdComplex R) := ⟨⟨1, 0⟩⟩
instance [Add R] : Add (StdComplex R) := ⟨fun z w => ⟨z.re + w.re, z.im + w.im⟩⟩
instance [Neg R] : Neg (StdComplex R) := ⟨fun z => ⟨-z.re, -z.im⟩⟩
instance [Sub R] : Sub (StdComplex R) := ⟨fun z w => ⟨z.re - w.re, z.im - w.im⟩⟩
instance [Add R] [Sub R] [Mul R] : Mul (StdComplex R) :=
  ⟨fun z w => ⟨z.re * w.re - z.im * w.im, z.re * w.im + z.im * w.re⟩⟩


instance [CommRing R] : CommRing (StdComplex R) where
  add_assoc a b c := StdComplex.ext (add_assoc a.re b.re c.re) (add_assoc a.im b.im c.im)
  zero_add a := StdComplex.ext (zero_add a.re) (zero_add a.im)
  add_zero a := StdComplex.ext (add_zero a.re) (add_zero a.im)
  add_comm a b := StdComplex.ext (add_comm a.re b.re) (add_comm a.im b.im)
  neg_add_cancel a := StdComplex.ext (neg_add_cancel a.re) (neg_add_cancel a.im)
  sub_eq_add_neg a b := StdComplex.ext (sub_eq_add_neg a.re b.re) (sub_eq_add_neg a.im b.im)
  left_distrib a b c := StdComplex.ext
    (show a.re * (b.re + c.re) - a.im * (b.im + c.im) =
      a.re * b.re - a.im * b.im + (a.re * c.re - a.im * c.im) by ring)
    (show a.re * (b.im + c.im) + a.im * (b.re + c.re) =
      a.re * b.im + a.im * b.re + (a.re * c.im + a.im * c.re) by ring)
  right_distrib a b c := StdComplex.ext
    (show (a.re + b.re) * c.re - (a.im + b.im) * c.im =
      a.re * c.re - a.im * c.im + (b.re * c.re - b.im * c.im) by ring)
    (show (a.re + b.re) * c.im + (a.im + b.im) * c.re =
      a.re * c.im + a.im * c.re + (b.re * c.im + b.im * c.re) by ring)
  zero_mul a := StdComplex.ext (show (0 : R) * a.re - 0 * a.im = 0 by ring)
    (show (0 : R) * a.im + 0 * a.re = 0 by ring)
  mul_zero a := StdComplex.ext (show a.re * (0 : R) - a.im * 0 = 0 by ring)
    (show a.re * (0 : R) + a.im * 0 = 0 by ring)
  mul_assoc a b c := StdComplex.ext
    (show (a.re * b.re - a.im * b.im) * c.re - (a.re * b.im + a.im * b.re) * c.im =
      a.re * (b.re * c.re - b.im * c.im) - a.im * (b.re * c.im + b.im * c.re) by ring)
    (show (a.re * b.re - a.im * b.im) * c.im + (a.re * b.im + a.im * b.re) * c.re =
      a.re * (b.re * c.im + b.im * c.re) + a.im * (b.re * c.re - b.im * c.im) by ring)
  one_mul a := StdComplex.ext (show (1 : R) * a.re - 0 * a.im = a.re by ring)
    (show (1 : R) * a.im + 0 * a.re = a.im by ring)
  mul_one a := StdComplex.ext (show a.re * (1 : R) - a.im * 0 = a.re by ring)
    (show a.re * (0 : R) + a.im * 1 = a.im by ring)
  mul_comm a b := StdComplex.ext
    (show a.re * b.re - a.im * b.im = b.re * a.re - b.im * a.im by ring)
    (show a.re * b.im + a.im * b.re = b.re * a.im + b.im * a.re by ring)
  nsmul := nsmulRec
  zsmul := zsmulRec
/-- The product `double * complex` (each part is scaled). -/
def rmul [Mul R] (r : R) (z : StdComplex R) : StdComplex R := ⟨r * z.re, r * z.im⟩

/-- The product `complex * double` (each part is scaled). -/
def mulR [Mul R] (z : StdComplex R) (r : R) : StdComplex R := ⟨z.re * r, z.im * r⟩

/-- The quotient `complex / double` (each part is divided). -/
def divR [Div R] (z : StdComplex R) (r : R) : StdComplex R := ⟨z.re / r, z.im / r⟩

/-- The member function `real()`. -/
def real (z : StdComplex R) : R := z.re

end StdComplex

/-! ## Containers -/

/-- The type `GenMatrix<T>`: a dense matrix with `n_rows` rows and `n_cols` columns. -/
structure GenMatrix (α : Type) where
  n_rows : Nat
  n_cols : Nat
  elems : Nat → Nat → α

namespace GenMatrix

variable {α : Type}

/-- The call `Init(rows, cols)`: storage is allocated, the contents are whatever `junk` holds. -/
def Init (rows cols : Nat) (junk : Nat → Nat → α) : GenMatrix α := ⟨rows, cols, junk⟩

/-- The call `get(r, c)`. -/
def get (m : GenMatrix α) (r c : Nat) : Option α :=
  if r < m.n_rows ∧ c < m.n_cols then some (m.elems r c) else none

/-- The call `set(r, c, v)`. -/
def set (m : GenMatrix α) (r c : Nat) (v : α) : Option (GenMatrix α) :=
  if r < m.n_rows ∧ c < m.n_cols then
    some ⟨m.n_rows, m.n_cols, fun i j => if i = r ∧ j = c then v else m.elems i j⟩
  else none

end GenMatrix

/-- The type `ArrayList<T>`: an array of `size` elements. -/
structure ArrayList (α : Type) where
  size : Nat
  elem : Nat → α

namespace ArrayList

variable {α : Type}

/-- The call `Init(size)`: every element is default-constructed. -/
def Init (size : Nat) (dflt : α) : ArrayList α := ⟨size, fun _ => dflt⟩

/-- Read access `list[i]`. -/
def at? (l : ArrayList α) (i : Nat) : Option α :=
  if i < l.size then some (l.elem i) else none

/-- Write access: the element behind the reference `list[i]` is replaced. -/
def put (l : ArrayList α) (i : Nat) (x : α) : Option (ArrayList α) :=
  if i < l.size then some ⟨l.size, fun k => if k = i then x else l.elem k⟩ else none

end ArrayList

/-- A table of coefficients: one complex matrix for each order. -/
abbrev CoeffTable (R : Type) := ArrayList (GenMatrix (StdComplex R))

/-- The statement `coeffs[n].set(a, b, coeffs[n].get(a, b) + v)`. -/
def CoeffTable.addAt {R : Type} [Add R] (t : CoeffTable R) (n a b : Nat) (v : StdComplex R) :
    Option (CoeffTable R) := do
  let m ← t.at? n
  let old ← m.get a b
  let m2 ← m.set a b (old + v)
  t.put n m2

/-! ## Loops -/

/-- The loop body `body i` is run for `i = lo, lo + 1, ..., lo + cnt - 1`, stopping at the first
failure. -/
def forRange {σ : Type} (body : Nat → σ → Option σ) : Nat → Nat → σ → Option σ
  | _, 0, s => some s
  | lo, cnt + 1, s => (body lo s).bind (forRange body (lo + 1) cnt)

/-- The loop `for (size_t i = lo; i <= hi; i++) body`, for `hi` below the largest `size_t`; the
body is run for `i = lo, ..., hi` and not at all when `hi < lo`. -/
def forLoop {σ : Type} (lo hi : Nat) (body : Nat → σ → Option σ) (s : σ) : Option σ :=
  forRange body lo (hi + 1 - lo) s

/-- The loop `for (size_t i = 0; i < hi; i++) body`. -/
def forBelow {σ : Type} (hi : Nat) (body : Nat → σ → Option σ) (s : σ) : Option σ :=
  forRange body 0 hi s

/-! ## The auxiliary object -/

/-- The class `InversePowDistSeriesExpansionAux`, which the translated file only uses: its
maximum order, its table of multiplicative constants (read as `[n].get(a, b)`), its coordinate
conversions, its power of a root of unity, and its Gegenbauer and partial-derivative routines.
`cos` is the cosine of the math library. `GegenbauerPolynomials c rows cols` is the table that the
routine leaves in a matrix initialised to `rows` by `cols`. -/
structure InversePowDistSeriesExpansionAux (R : Type) where
  max_order : Int
  multiplicative_constants : Nat → Nat → Nat → R
  ConvertToComplexForm : R → R → R × StdComplex R × StdComplex R
  PowWithRootOfUnity : StdComplex R → Nat → StdComplex R
  ConvertCartesianToSpherical : R → R → R → R × R × R
  cos : R → R
  GegenbauerPolynomials : R → Nat → Nat → GenMatrix R
  ComputePartialDerivativeFactor :
    Nat → Nat → Nat → R → R → R → GenMatrix R → StdComplex R

/-! ## The expansions -/

/-- The class `InversePowDistFarFieldExpansion`. -/
structure InversePowDistFarFieldExpansion (R : Type) where
  center_ : Fin 3 → R
  coeffs_ : CoeffTable R
  order_ : Int
  sea_ : InversePowDistSeriesExpansionAux R

/-- The class `InversePowDistLocalExpansion`, as far as the translated file uses it: a center, a
table of coefficients and an order, read and written through accessors. -/
structure InversePowDistLocalExpansion (R : Type) where
  center_ : Fin 3 → R
  coeffs_ : CoeffTable R
  order_ : Int

/-- The constant `DBL_EPSILON`. -/
def DBL_EPSILON {R : Type} [LinearOrderedField R] : R := 1 / 2 ^ 52

/-- The call `data.GetColumnPtr(p)` followed by reads of the first three entries. -/
def GetColumnPtr {R : Type} (data : GenMatrix R) (p : Nat) : Option (Fin 3 → R) :=
  if p < data.n_cols ∧ 3 ≤ data.n_rows then some (fun i => data.elems i.val p) else none

namespace InversePowDistFarFieldExpansion

variable {R : Type} [LinearOrderedField R]

/-- The coefficient loop of `Accumulate` (lines 24 to 49). The differences `n - a` and `a - b`
cannot wrap around, because `a ≤ n` and `b ≤ a` inside the loops. -/
def AccumulateLoop (sea : InversePowDistSeriesExpansionAux R) (x_coord y_coord z_coord : R)
    (weight : R) (order : Int) (coeffs : CoeffTable R) : Option (CoeffTable R) :=
  let cf := sea.ConvertToComplexForm x_coord y_coord
  let magnitude_of_vector_in_xy_plane := cf.1
  let eta := cf.2.1
  let xi := cf.2.2
  forLoop 0 (toSizeT order) (fun n t => do
    let _ ← t.at? n
    forLoop 0 n (fun a t =>
      let power_of_z_coord := z_coord ^ (n - a)
      forLoop 0 a (fun b t =>
        let power_of_eta :=
          (sea.PowWithRootOfUnity eta b).mulR (magnitude_of_vector_in_xy_plane ^ b)
        let power_of_xi :=
          (sea.PowWithRootOfUnity xi (a - b)).mulR (magnitude_of_vector_in_xy_plane ^ (a - b))
        let contribution :=
          StdComplex.rmul (weight * power_of_z_coord) power_of_eta * power_of_xi
        t.addAt n a b contribution) t) t) coeffs

/-- The member function `Accumulate(v, weight, order)`. -/
def Accumulate (e : InversePowDistFarFieldExpansion R) (v : Fin 3 → R) (weight : R)
    (order : Int) : Option (InversePowDistFarFieldExpansion R) := do
  let x_coord := v 0 - e.center_ 0
  let y_coord := v 1 - e.center_ 1
  let z_coord := v 2 - e.center_ 2
  let coeffs ← AccumulateLoop e.sea_ x_coord y_coord z_coord weight order e.coeffs_
  pure { e with coeffs_ := coeffs, order_ := max e.order_ order }

/-- The member function `AccumulateCoeffs(data, weights, begin, end, order)`. -/
def AccumulateCoeffs (e : InversePowDistFarFieldExpansion R) (data : GenMatrix R)
    (weights : ArrayList R) (begin_ end_ : Int) (order : Int) :
    Option (InversePowDistFarFieldExpansion R) :=
  forRange (fun p e => do
    let v ← GetColumnPtr data p
    let w ← weights.at? (toSizeT begin_)
    Accumulate e v w order) (toSizeT begin_) (toSizeT end_ - toSizeT begin_) e

/-- The member function `EvaluateField(v, order)`. -/
def EvaluateField (e : InversePowDistFarFieldExpansion R) (v : Fin 3 → R) (order : Int) :
    Option R :=
  if e.order_ < 0 then some 0 else
  let x_diff := v 0 - e.center_ 0
  let y_diff := v 1 - e.center_ 1
  let z_diff := v 2 - e.center_ 2
  let sph := e.sea_.ConvertCartesianToSpherical x_diff y_diff z_diff
  let radius := sph.1
  let theta := sph.2.1
  let phi := sph.2.2
  let evaluated_polynomials :=
    e.sea_.GegenbauerPolynomials (e.sea_.cos theta) (toSizeT (order + 1)) (toSizeT (order + 1))
  forLoop 0 (toSizeT order) (fun n result => do
    let n_th_order_matrix ← e.coeffs_.at? n
    forLoop 0 n (fun a result =>
      forLoop 0 a (fun b result => do
        let partial_derivative :=
          e.sea_.ComputePartialDerivativeFactor n a b radius theta phi evaluated_polynomials
        let c ← n_th_order_matrix.get a b
        let product := c * partial_derivative
        pure (result + e.sea_.multiplicative_constants n a b * product.real)) result) result) 0

/-- The member function `Init(center, sea)`. The memory that the allocations return holds
`junk`. -/
def Init (center : Fin 3 → R) (sea : InversePowDistSeriesExpansionAux R)
    (junk : Nat → Nat → Nat → StdComplex R) : Option (InversePowDistFarFieldExpansion R) := do
  let coeffs0 : CoeffTable R :=
    ArrayList.Init (toSizeT (sea.max_order + 1)) (GenMatrix.Init 0 0 (junk 0))
  let coeffs ← forLoop 0 (toSizeT sea.max_order) (fun n t => do
    let _ ← t.at? n
    let t1 ← t.put n (GenMatrix.Init (n + 1) (n + 1) (junk n))
    forLoop 0 n (fun j t =>
      forLoop 0 n (fun k t => do
        let m ← t.at? n
        let m2 ← m.set j k 0
        t.put n m2) t) t1) coeffs0
  pure { center_ := center, coeffs_ := coeffs, order_ := -1, sea_ := sea }

/-- The branch of `TranslateFromFarField` for coinciding centers (lines 195 to 212): the loop and
the `return` that follows it. -/
def TranslateFromFarFieldSameCenter (e se : InversePowDistFarFieldExpansion R) :
    Option (InversePowDistFarFieldExpansion R) := do
  let coeffs ← forLoop 0 (toSizeT se.order_) (fun n_prime t => do
    let dest ← t.at? n_prime
    forBelow dest.n_cols (fun j t =>
      forBelow dest.n_rows (fun i t => do
        let src ← se.coeffs_.at? n_prime
        let c ← src.get i j
        t.addAt n_prime i j c) t) t) e.coeffs_
  pure { e with coeffs_ := coeffs }

/-- The coefficient loop of the general branch of `TranslateFromFarField` (lines 226 to 293).
All index arithmetic is that of `size_t`: `a_prime + n - n_prime` and `b_prime + a - a_prime` wrap
around when the difference is negative, and `std::max(0, .)` of an unsigned value is that
value. -/
def TranslateFromFarFieldLoop (sea : InversePowDistSeriesExpansionAux R)
    (se : InversePowDistFarFieldExpansion R) (x_diff y_diff z_diff : R)
    (coeffs : CoeffTable R) : Option (CoeffTable R) :=
  let cf := sea.ConvertToComplexForm x_diff y_diff
  let magnitude_of_vector_in_xy_plane := cf.1
  let eta := cf.2.1
  let xi := cf.2.2
  let mc := sea.multiplicative_constants
  forLoop 0 (toSizeT se.order_) (fun n_prime t => do
    let _ ← t.at? n_prime
    forLoop 0 n_prime (fun a_prime t =>
      forLoop 0 a_prime (fun b_prime t =>
        forLoop 0 n_prime (fun n t => do
          let l_a := max 0 (sizeSub (sizeAdd a_prime n) n_prime)
          let u_a := min n a_prime
          let n_th_order_source_matrix ← se.coeffs_.at? n
          forLoop l_a u_a (fun a t =>
            let power_of_z_coord :=
              z_diff ^ (sizeAdd (sizeSub (sizeSub n_prime n) a_prime) a)
            let l_b := max 0 (sizeSub (sizeAdd b_prime a) a_prime)
            let u_b := min a b_prime
            forLoop l_b u_b (fun b t => do
              let power_of_eta :=
                (sea.PowWithRootOfUnity eta (sizeSub b_prime b)).mulR
                  (magnitude_of_vector_in_xy_plane ^ (sizeSub b_prime b))
              let power_of_xi :=
                (sea.PowWithRootOfUnity xi
                    (sizeAdd (sizeSub (sizeSub a_prime a) b_prime) b)).mulR
                  (magnitude_of_vector_in_xy_plane ^
                    (sizeAdd (sizeSub (sizeSub a_prime a) b_prime) b))
              let c ← n_th_order_source_matrix.get a b
              let contribution :=
                ((((c.mulR (mc n a b)).mulR
                      (mc (sizeSub n_prime n) (sizeSub a_prime a) (sizeSub b_prime b))).divR
                    (mc n_prime a_prime b_prime)).mulR power_of_z_coord) *
                  power_of_eta * power_of_xi
              t.addAt n_prime a_prime b_prime contribution) t) t) t) t) t) coeffs

/-- The general branch of `TranslateFromFarField` (lines 215 to 297), for the offset
`(x_diff, y_diff, z_diff)` from the receiver to the child. -/
def TranslateFromFarFieldGeneral (e se : InversePowDistFarFieldExpansion R)
    (x_diff y_diff z_diff : R) : Option (InversePowDistFarFieldExpansion R) := do
  let coeffs ← TranslateFromFarFieldLoop e.sea_ se x_diff y_diff z_diff e.coeffs_
  pure { e with coeffs_ := coeffs, order_ := max e.order_ se.order_ }

/-- The member function `TranslateFromFarField(se)`. -/
def TranslateFromFarField (e se : InversePowDistFarFieldExpansion R) :
    Option (InversePowDistFarFieldExpansion R) :=
  if se.order_ < 0 then some e else
  let x_diff := -(e.center_ 0 - se.center_ 0)
  let y_diff := -(e.center_ 1 - se.center_ 1)
  let z_diff := -(e.center_ 2 - se.center_ 2)
  if |x_diff| < DBL_EPSILON ∧ |y_diff| < DBL_EPSILON ∧ |z_diff| < DBL_EPSILON then
    TranslateFromFarFieldSameCenter e se
  else
    TranslateFromFarFieldGeneral e se x_diff y_diff z_diff

/-- The coefficient loop of `TranslateToLocal` (lines 334 to 382). -/
def TranslateToLocalLoop (e : InversePowDistFarFieldExpansion R) (truncation_order : Int)
    (radius theta phi : R) (evaluated_polynomials : GenMatrix R)
    (local_moments : CoeffTable R) : Option (CoeffTable R) :=
  let mc := e.sea_.multiplicative_constants
  forLoop 0 (toSizeT truncation_order) (fun n_prime t => do
    let _ ← t.at? n_prime
    forLoop 0 n_prime (fun a_prime t =>
      forLoop 0 a_prime (fun b_prime t =>
        forLoop 0 (toSizeT truncation_order) (fun n t => do
          let farfield_n_th_order_matrix ← e.coeffs_.at? n
          forLoop 0 n (fun a t =>
            forLoop 0 a (fun b t => do
              let partial_derivative :=
                e.sea_.ComputePartialDerivativeFactor (n + n_prime) (a + a_prime)
                  (b + b_prime) radius theta phi evaluated_polynomials
              let c ← farfield_n_th_order_matrix.get a b
              let product :=
                ((StdComplex.rmul (mc n_prime a_prime b_prime) c).mulR (mc n a b)) *
                  partial_derivative
              t.addAt n_prime a_prime b_prime product) t) t) t) t) t) local_moments

/-- The member function `TranslateToLocal(se, truncation_order)`: the result is the receiver,
which the function does not write, and the updated local expansion. -/
def TranslateToLocal (e : InversePowDistFarFieldExpansion R)
    (se : InversePowDistLocalExpansion R) (truncation_order : Int) :
    Option (InversePowDistFarFieldExpansion R × InversePowDistLocalExpansion R) :=
  if e.order_ < 0 then some (e, se) else
  let x_diff := -(se.center_ 0 - e.center_ 0)
  let y_diff := -(se.center_ 1 - e.center_ 1)
  let z_diff := -(se.center_ 2 - e.center_ 2)
  let sph := e.sea_.ConvertCartesianToSpherical x_diff y_diff z_diff
  let evaluated_polynomials :=
    e.sea_.GegenbauerPolynomials (e.sea_.cos sph.2.1)
      (toSizeT (2 * (truncation_order + 1))) (toSizeT (2 * (truncation_order + 1)))
  (TranslateToLocalLoop e truncation_order sph.1 sph.2.1 sph.2.2 evaluated_polynomials
      se.coeffs_).bind
    (fun lm => some (e, { se with coeffs_ := lm, order_ := max se.order_ truncation_order }))

end InversePowDistFarFieldExpansion

/-! ## Vocabulary of the statements -/

section Vocabulary

variable {R : Type}

/-- The entry `(a, b)` of the matrix of order `n`, as stored. -/
def CoeffTable.coeff (t : CoeffTable R) (n a b : Nat) : StdComplex R := (t.elem n).elems a b

/-- The shape of a table: its size and the dimensions of each matrix. -/
def CoeffTable.shape (t : CoeffTable R) : Nat × (Nat → Nat × Nat) :=
  (t.size, fun n => ((t.elem n).n_rows, (t.elem n).n_cols))

/-- The table has `N + 1` matrices and the matrix of order `n` is `(n + 1)` by `(n + 1)`. -/
def CoeffTable.Shaped (t : CoeffTable R) (N : Nat) : Prop :=
  t.size = N + 1 ∧ ∀ n, n ≤ N → (t.elem n).n_rows = n + 1 ∧ (t.elem n).n_cols = n + 1

/-- The function that is `v` at `(n0, a0, b0)` and zero elsewhere. -/
def single [Zero R] (n0 a0 b0 : Nat) (v : StdComplex R) (n a b : Nat) : StdComplex R :=
  if n = n0 then (if a = a0 then (if b = b0 then v else 0) else 0) else 0

/-- The table `t2` has the shape of `t1` and holds the entries of `t1` plus `g`. -/
def Adds [Add R] (t1 t2 : CoeffTable R) (g : Nat → Nat → Nat → StdComplex R) : Prop :=
  t2.shape = t1.shape ∧ ∀ n a b, t2.coeff n a b = t1.coeff n a b + g n a b

/-- While `Init` clears the matrix of order `n`: the table has its final size, the other
matrices are those of `t`, the matrix of order `n` is allocated and vanishes on `Z`. -/
def Clearing [Zero R] (t : CoeffTable R) (size n : Nat) (Z : Nat → Nat → Prop)
    (u : CoeffTable R) : Prop :=
  u.size = size ∧ (∀ k, k ≠ n → u.elem k = t.elem k) ∧
    (u.elem n).n_rows = n + 1 ∧ (u.elem n).n_cols = n + 1 ∧
    ∀ a b, Z a b → (u.elem n).elems a b = 0

/-- What `Init` has established once the orders below `n` are done. -/
def Cleared [Zero R] (size n : Nat) (t : CoeffTable R) : Prop :=
  t.size = size ∧ ∀ k, k < n → (t.elem k).n_rows = k + 1 ∧ (t.elem k).n_cols = k + 1 ∧
    ∀ a b, a ≤ k → b ≤ k → (t.elem k).elems a b = 0

end Vocabulary

/-- The three inner loops of the general branch of `TranslateFromFarField` reach the source
index `(n, a, b)` for the destination `(n_prime, a_prime, b_prime)`: the conditions of the loops
of lines 238, 256 and 264, with the bounds of lines 240, 241, 261 and 262 in `size_t`. -/
def visits (n_prime a_prime b_prime n a b : Nat) : Prop :=
  n ≤ n_prime ∧ max 0 (sizeSub (sizeAdd a_prime n) n_prime) ≤ a ∧ a ≤ min n a_prime ∧
    max 0 (sizeSub (sizeAdd b_prime a) a_prime) ≤ b ∧ b ≤ min a b_prime

instance (n_prime a_prime b_prime n a b : Nat) : Decidable (visits n_prime a_prime b_prime n a b) :=
  inferInstanceAs (Decidable (_ ∧ _))

/-- The largest value of an `int`. -/
def INT_MAX : Int := 2147483647

namespace InversePowDistFarFieldExpansion

variable {R : Type} [LinearOrderedField R]

/-- A state as `Init` and the member functions leave it: the maximum order of the auxiliary
object is a non-negative `int`, the table holds one `(n + 1)` by `(n + 1)` matrix for each order
`n` up to it, and the order of the expansion does not exceed the maximum order. -/
structure Valid (e : InversePowDistFarFieldExpansion R) : Prop where
  max_nonneg : 0 ≤ e.sea_.max_order
  max_le : e.sea_.max_order ≤ INT_MAX
  shaped : e.coeffs_.Shaped e.sea_.max_order.toNat
  order_le : e.order_ ≤ e.sea_.max_order

/-- The entry `(a, b)` of the coefficient matrix of order `n`. -/
def coefficient (e : InversePowDistFarFieldExpansion R) (n a b : Nat) : StdComplex R :=
  e.coeffs_.coeff n a b

/-- The value that `Accumulate` adds to the entry `(n, a, b)` (line 44). -/
def accumulateTerm (sea : InversePowDistSeriesExpansionAux R) (x_coord y_coord z_coord : R)
    (weight : R) (n a b : Nat) : StdComplex R :=
  StdComplex.rmul (weight * z_coord ^ (n - a))
      ((sea.PowWithRootOfUnity (sea.ConvertToComplexForm x_coord y_coord).2.1 b).mulR
        ((sea.ConvertToComplexForm x_coord y_coord).1 ^ b)) *
    (sea.PowWithRootOfUnity (sea.ConvertToComplexForm x_coord y_coord).2.2 (a - b)).mulR
      ((sea.ConvertToComplexForm x_coord y_coord).1 ^ (a - b))

/-- The value that `TranslateToLocal` adds to the entry `(n_prime, a_prime, b_prime)` of the
target for the source index `(n, a, b)` (lines 363 to 371). -/
def localTerm (e : InversePowDistFarFieldExpansion R) (radius theta phi : R)
    (evaluated_polynomials : GenMatrix R) (n_prime a_prime b_prime n a b : Nat) :
    StdComplex R :=
  ((StdComplex.rmul (e.sea_.multiplicative_constants n_prime a_prime b_prime)
        (e.coeffs_.coeff n a b)).mulR (e.sea_.multiplicative_constants n a b)) *
    e.sea_.ComputePartialDerivativeFactor (n + n_prime) (a + a_prime) (b + b_prime) radius theta
      phi evaluated_polynomials

/-- The value that the general branch of `TranslateFromFarField` adds to the entry
`(n_prime, a_prime, b_prime)` for the source index `(n, a, b)` (lines 259 to 284). -/
def generalTerm (sea : InversePowDistSeriesExpansionAux R)
    (se : InversePowDistFarFieldExpansion R) (x_diff y_diff z_diff : R)
    (n_prime a_prime b_prime n a b : Nat) : StdComplex R :=
  (((((se.coeffs_.coeff n a b).mulR (sea.multiplicative_constants n a b)).mulR
          (sea.multiplicative_constants (sizeSub n_prime n) (sizeSub a_prime a)
            (sizeSub b_prime b))).divR
        (sea.multiplicative_constants n_prime a_prime b_prime)).mulR
      (z_diff ^ (sizeAdd (sizeSub (sizeSub n_prime n) a_prime) a))) *
    (sea.PowWithRootOfUnity (sea.ConvertToComplexForm x_diff y_diff).2.1
        (sizeSub b_prime b)).mulR
      ((sea.ConvertToComplexForm x_diff y_diff).1 ^ (sizeSub b_prime b)) *
    (sea.PowWithRootOfUnity (sea.ConvertToComplexForm x_diff y_diff).2.2
        (sizeAdd (sizeSub (sizeSub a_prime a) b_prime) b)).mulR
      ((sea.ConvertToComplexForm x_diff y_diff).1 ^
        (sizeAdd (sizeSub (sizeSub a_prime a) b_prime) b))

/-- The sum of the terms that the general branch of `TranslateFromFarField` adds to the entry
`(n_prime, a_prime, b_prime)`, over the index ranges of its three inner loops. -/
def generalSum (sea : InversePowDistSeriesExpansionAux R)
    (se : InversePowDistFarFieldExpansion R) (x_diff y_diff z_diff : R)
    (n_prime a_prime b_prime : Nat) : StdComplex R :=
  ∑ n in Finset.Ico 0 (n_prime + 1),
    ∑ a in Finset.Ico (max 0 (sizeSub (sizeAdd a_prime n) n_prime)) (min n a_prime + 1),
      ∑ b in Finset.Ico (max 0 (sizeSub (sizeAdd b_prime a) a_prime)) (min a b_prime + 1),
        generalTerm sea se x_diff y_diff z_diff n_prime a_prime b_prime n a b

/-- A sequence of calls of `Accumulate`, each with its point, its weight and its order. -/
def AccumulateSeq (e : InversePowDistFarFieldExpansion R) :
    List ((Fin 3 → R) × R × Int) → Option (InversePowDistFarFieldExpansion R)
  | [] => some e
  | c :: cs => (Accumulate e c.1 c.2.1 c.2.2).bind (fun e2 => AccumulateSeq e2 cs)

/-- One call of a member function on a far-field expansion that returns: `Accumulate`,
`AccumulateCoeffs`, `TranslateFromFarField` (on the receiver), `TranslateToLocal` (on the
far-field expansion it is called on) or `EvaluateField` (which returns a value and has no state
to change). -/
inductive Step : InversePowDistFarFieldExpansion R → InversePowDistFarFieldExpansion R → Prop
  | accumulate (e e2 : InversePowDistFarFieldExpansion R) (v : Fin 3 → R) (weight : R)
      (order : Int) : Accumulate e v weight order = some e2 → Step e e2
  | accumulateCoeffs (e e2 : InversePowDistFarFieldExpansion R) (data : GenMatrix R)
      (weights : ArrayList R) (begin_ end_ order : Int) :
      AccumulateCoeffs e data weights begin_ end_ order = some e2 → Step e e2
  | translateFromFarField (e se e2 : InversePowDistFarFieldExpansion R) :
      TranslateFromFarField e se = some e2 → Step e e2
  | translateToLocal (e e2 : InversePowDistFarFieldExpansion R)
      (se se2 : InversePowDistLocalExpansion R) (truncation_order : Int) :
      TranslateToLocal e se truncation_order = some (e2, se2) → Step e e2
  | evaluateField (e : InversePowDistFarFieldExpansion R) (v : Fin 3 → R) (order : Int)
      (r : R) : EvaluateField e v order = some r → Step e e

/-- The states that `Init` produces and those that calls of the member functions lead to. -/
inductive Reachable : InversePowDistFarFieldExpansion R → Prop
  | init (center : Fin 3 → R) (sea : InversePowDistSeriesExpansionAux R)
      (junk : Nat → Nat → Nat → StdComplex R) (e : InversePowDistFarFieldExpansion R) :
      Init center sea junk = some e → Reachable e
  | step (e e2 : InversePowDistFarFieldExpansion R) : Reachable e → Step e e2 → Reachable e2

end InversePowDistFarFieldExpansion

/-! ## Concrete inputs over the rationals -/

namespace Sample

/-- The multiplicative constants `1 / ((n - a)! b! (a - b)!)`. -/
def constants (n a b : Nat) : ℚ :=
  1 / (((n - a).factorial : ℚ) * (b.factorial : ℚ) * ((a - b).factorial : ℚ))

/-- An auxiliary object with maximum order `N` and multiplicative constants `m`. The complex
form of `(x, y)` has `eta * rho = x + i y` and `xi * rho = x - i y`, with `rho = 0` and unit
`eta`, `xi` at the origin; the power of a root of unity is the plain power. -/
def aux (N : Int) (m : Nat → Nat → Nat → ℚ) : InversePowDistSeriesExpansionAux ℚ where
  max_order := N
  multiplicative_constants := m
  ConvertToComplexForm := fun x y => if x = 0 ∧ y = 0 then (0, 1, 1) else (1, ⟨x, y⟩, ⟨x, -y⟩)
  PowWithRootOfUnity := fun z k => z ^ k
  ConvertCartesianToSpherical := fun x y z => (x, y, z)
  cos := fun t => t
  GegenbauerPolynomials := fun _ rows cols => ⟨rows, cols, fun _ _ => 1⟩
  ComputePartialDerivativeFactor := fun _ _ _ _ _ _ _ => 1

/-- The table of `N + 1` zero matrices that `Init` allocates. -/
def zeroTable (N : Nat) : CoeffTable ℚ := ⟨N + 1, fun n => ⟨n + 1, n + 1, fun _ _ => 0⟩⟩

/-- An empty far-field expansion of maximum order `N` around `c`. -/
def emptyAt (N : Nat) (c : Fin 3 → ℚ) : InversePowDistFarFieldExpansion ℚ :=
  ⟨c, zeroTable N, -1, aux N constants⟩

/-- A far-field expansion of maximum order `N` around `c` with multiplicative constants `m`
that has order `ord` and holds the single coefficient `(0, 0, 0) = w`: the state after one point
of weight `w` located at `c` was accumulated at order `ord`. -/
def monopoleWith (N : Nat) (c : Fin 3 → ℚ) (w : ℚ) (ord : Int) (m : Nat → Nat → Nat → ℚ) :
    InversePowDistFarFieldExpansion ℚ :=
  ⟨c, ⟨N + 1, fun n => ⟨n + 1, n + 1, fun _ _ => if n = 0 then ⟨w, 0⟩ else 0⟩⟩, ord, aux N m⟩

/-- The expansion `monopoleWith` for the constants `1 / ((n - a)! b! (a - b)!)`. -/
def monopoleAt (N : Nat) (c : Fin 3 → ℚ) (w : ℚ) (ord : Int) :
    InversePowDistFarFieldExpansion ℚ :=
  monopoleWith N c w ord constants

/-- An empty local expansion of maximum order `N` around `c`. -/
def emptyLocalAt (N : Nat) (c : Fin 3 → ℚ) : InversePowDistLocalExpansion ℚ :=
  ⟨c, zeroTable N, -1⟩

/-- The point `(x, y, z)`. -/
def pt (x y z : ℚ) : Fin 3 → ℚ := fun i => if i = 0 then x else if i = 1 then y else z

/-- Two data points, stored as the columns of a 3 by 2 matrix: `(0, 0, 1)` and `(0, 0, 2)`. -/
def twoPoints : GenMatrix ℚ :=
  ⟨3, 2, fun i p => if i = 2 then (if p = 0 then 1 else 2) else 0⟩

/-- The weights `1` and `2` of the two data points. -/
def twoWeights : ArrayList ℚ := ⟨2, fun p => if p = 0 then 1 else 2⟩

end Sample

end Fastlib

/-! # Theorems -/

namespace Fastlib

namespace StdComplex

variable {R : Type}

@[simp] theorem zero_re [Zero R] : (0 : StdComplex R).re = 0 := rfl
@[simp] theorem zero_im [Zero R] : (0 : StdComplex R).im = 0 := rfl
@[simp] theorem one_re [Zero R] [One R] : (1 : StdComplex R).re = 1 := rfl
@[simp] theorem one_im [Zero R] [One R] : (1 : StdComplex R).im = 0 := rfl
@[simp] theorem add_re [Add R] (z w : StdComplex R) : (z + w).re = z.re + w.re := rfl
@[simp] theorem add_im [Add R] (z w : StdComplex R) : (z + w).im = z.im + w.im := rfl
@[simp] theorem neg_re [Neg R] (z : StdComplex R) : (-z).re = -z.re := rfl
@[simp] theorem neg_im [Neg R] (z : StdComplex R) : (-z).im = -z.im := rfl
@[simp] theorem sub_re [Sub R] (z w : StdComplex R) : (z - w).re = z.re - w.re := rfl
@[simp] theorem sub_im [Sub R] (z w : StdComplex R) : (z - w).im = z.im - w.im := rfl
@[simp] theorem mul_re [Add R] [Sub R] [Mul R] (z w : StdComplex R) :
    (z * w).re = z.re * w.re - z.im * w.im := rfl
@[simp] theorem mul_im [Add R] [Sub R] [Mul R] (z w : StdComplex R) :
    (z * w).im = z.re * w.im + z.im * w.re := rfl

@[simp] theorem rmul_re [Mul R] (r : R) (z : StdComplex R) : (rmul r z).re = r * z.re := rfl
@[simp] theorem rmul_im [Mul R] (r : R) (z : StdComplex R) : (rmul r z).im = r * z.im := rfl
@[simp] theorem mulR_re [Mul R] (z : StdComplex R) (r : R) : (mulR z r).re = z.re * r := rfl
@[simp] theorem mulR_im [Mul R] (z : StdComplex R) (r : R) : (mulR z r).im = z.im * r := rfl
@[simp] theorem divR_re [Div R] (z : StdComplex R) (r : R) : (divR z r).re = z.re / r := rfl
@[simp] theorem divR_im [Div R] (z : StdComplex R) (r : R) : (divR z r).im = z.im / r := rfl

theorem rmul_mulR_mul [CommRing R] (r s : R) (z w : StdComplex R) :
    (rmul r z).mulR s * w = rmul r (z.mulR s * w) := by
  ext <;> simp <;> ring

theorem rmul_zero [CommRing R] (r : R) : rmul r (0 : StdComplex R) = 0 := by
  ext <;> simp

theorem rmul_add [CommRing R] (r : R) (z w : StdComplex R) :
    rmul r (z + w) = rmul r z + rmul r w := by
  ext <;> simp <;> ring

theorem rmul_sum [CommRing R] {ι : Type} (r : R) (s : Finset ι) (f : ι → StdComplex R) :
    rmul r (∑ i in s, f i) = ∑ i in s, rmul r (f i) := by
  classical
  induction s using Finset.induction_on with
  | empty => simp [rmul_zero]
  | insert hi ih => rw [Finset.sum_insert hi, Finset.sum_insert hi, rmul_add, ih]

end StdComplex

/-! ## Shapes, coefficients and the effect of a loop -/

section Framework

variable {R : Type}

theorem shaped_of_shape_eq {t1 t2 : CoeffTable R} {N : Nat} (h : t2.shape = t1.shape)
    (hs : t1.Shaped N) : t2.Shaped N := by
  simp only [CoeffTable.shape, Prod.mk.injEq] at h
  obtain ⟨h1, h2⟩ := h
  refine ⟨by rw [h1]; exact hs.1, fun n hn => ?_⟩
  have h3 := congrFun h2 n
  simp only [Prod.mk.injEq] at h3
  rw [h3.1, h3.2]
  exact hs.2 n hn

theorem at_of_lt {α : Type} (l : ArrayList α) {i : Nat} (h : i < l.size) :
    l.at? i = some (l.elem i) := by
  simp [ArrayList.at?, h]

theorem at_of_shaped {t : CoeffTable R} {N n : Nat} (hs : t.Shaped N) (hn : n ≤ N) :
    t.at? n = some (t.elem n) :=
  at_of_lt t (by rw [hs.1]; omega)

theorem get_of_lt {α : Type} (m : GenMatrix α) {r c : Nat} (hr : r < m.n_rows)
    (hc : c < m.n_cols) : m.get r c = some (m.elems r c) := by
  simp [GenMatrix.get, hr, hc]

theorem get_of_shaped {t : CoeffTable R} {N n a b : Nat} (hs : t.Shaped N) (hn : n ≤ N)
    (ha : a ≤ n) (hb : b ≤ n) : (t.elem n).get a b = some (t.coeff n a b) := by
  have h := hs.2 n hn
  exact get_of_lt _ (by rw [h.1]; omega) (by rw [h.2]; omega)

/-- A valid child whose table has as many matrices as the table of a valid receiver has a
table of the same shape and an order within the table of the receiver. -/
theorem child_shaped (e se : InversePowDistFarFieldExpansion R)
    (hvalid : InversePowDistFarFieldExpansion.Valid e)
    (hse : InversePowDistFarFieldExpansion.Valid se) (hsize : se.coeffs_.size = e.coeffs_.size) :
    se.coeffs_.Shaped e.sea_.max_order.toNat ∧ se.order_ ≤ e.sea_.max_order := by
  have ha := hse.shaped.1
  have hb := hvalid.shaped.1
  have hc1 := hse.order_le
  have hc2 := hse.max_nonneg
  have hc3 := hvalid.max_nonneg
  have hmax : se.sea_.max_order = e.sea_.max_order := by omega
  refine ⟨?_, by omega⟩
  rw [← hmax]
  exact hse.shaped

variable [CommRing R]

theorem addAt_adds (t : CoeffTable R) (n a b : Nat) (v : StdComplex R) (hn : n < t.size)
    (ha : a < (t.elem n).n_rows) (hb : b < (t.elem n).n_cols) :
    ∃ t2, t.addAt n a b v = some t2 ∧ Adds t t2 (single n a b v) := by
  have h : t.addAt n a b v = some ⟨t.size, fun k => if k = n then
      ⟨(t.elem n).n_rows, (t.elem n).n_cols,
        fun i j => if i = a ∧ j = b then (t.elem n).elems a b + v else (t.elem n).elems i j⟩
      else t.elem k⟩ := by
    simp only [CoeffTable.addAt, ArrayList.at?, GenMatrix.get, GenMatrix.set, ArrayList.put, hn,
      ha, hb, and_self, if_true, Option.bind_eq_bind, Option.some_bind]
  refine ⟨_, h, ?_, ?_⟩
  · simp only [CoeffTable.shape, Prod.mk.injEq, true_and]
    funext k
    by_cases hk : k = n
    · subst hk; simp
    · simp [hk]
  · intro k i j
    simp only [CoeffTable.coeff, single]
    by_cases hk : k = n
    · subst hk
      by_cases hi : i = a
      · by_cases hj : j = b
        · simp [hi, hj]
        · simp [hi, hj]
      · simp [hi]
    · simp [hk]

theorem Adds.zero (t : CoeffTable R) : Adds t t (fun _ _ _ => 0) :=
  ⟨rfl, fun n a b => by simp⟩

theorem Adds.congr {t1 t2 : CoeffTable R} {g h : Nat → Nat → Nat → StdComplex R}
    (hg : Adds t1 t2 g) (hgh : ∀ n a b, g n a b = h n a b) : Adds t1 t2 h :=
  ⟨hg.1, fun n a b => by rw [hg.2, hgh]⟩

/-- Effect of a counted loop whose body adds `g i` to the table at step `i`. -/
theorem forRange_adds (sh : Nat × (Nat → Nat × Nat))
    (body : Nat → CoeffTable R → Option (CoeffTable R))
    (g : Nat → Nat → Nat → Nat → StdComplex R) (cnt : Nat) :
    ∀ (lo : Nat) (t : CoeffTable R), t.shape = sh →
      (∀ i, lo ≤ i → i < lo + cnt → ∀ u : CoeffTable R, u.shape = sh →
        ∃ u2, body i u = some u2 ∧ Adds u u2 (g i)) →
      ∃ t2, forRange body lo cnt t = some t2 ∧
        Adds t t2 (fun n a b => ∑ i in Finset.Ico lo (lo + cnt), g i n a b) := by
  induction cnt with
  | zero =>
    intro lo t _ _
    exact ⟨t, rfl, rfl, fun n a b => by simp⟩
  | succ c ih =>
    intro lo t ht hbody
    obtain ⟨t1, h1, hA1⟩ := hbody lo (le_refl _) (by omega) t ht
    obtain ⟨t2, h2, hA2⟩ := ih (lo + 1) t1 (hA1.1.trans ht)
      (fun i hi1 hi2 u hu => hbody i (by omega) (by omega) u hu)
    refine ⟨t2, ?_, hA2.1.trans hA1.1, fun n a b => ?_⟩
    · simp [forRange, h1, h2]
    · rw [hA2.2, hA1.2]
      show _ + _ + (∑ i in Finset.Ico (lo + 1) (lo + 1 + c), g i n a b) =
        _ + (∑ i in Finset.Ico lo (lo + (c + 1)), g i n a b)
      rw [Finset.sum_eq_sum_Ico_succ_bot (by omega : lo < lo + (c + 1))]
      have : lo + 1 + c = lo + (c + 1) := by omega
      rw [this, add_assoc]

/-- Effect of the loop `for (i = lo; i <= hi; i++)`. -/
theorem forLoop_adds (sh : Nat × (Nat → Nat × Nat))
    (body : Nat → CoeffTable R → Option (CoeffTable R))
    (g : Nat → Nat → Nat → Nat → StdComplex R) (lo hi : Nat) (t : CoeffTable R)
    (ht : t.shape = sh)
    (hbody : ∀ i, lo ≤ i → i ≤ hi → ∀ u : CoeffTable R, u.shape = sh →
      ∃ u2, body i u = some u2 ∧ Adds u u2 (g i)) :
    ∃ t2, forLoop lo hi body t = some t2 ∧
      Adds t t2 (fun n a b => ∑ i in Finset.Ico lo (hi + 1), g i n a b) := by
  obtain ⟨t2, h2, hA⟩ := forRange_adds sh body g (hi + 1 - lo) lo t ht
    (fun i h1 h2 u hu => hbody i h1 (by omega) u hu)
  refine ⟨t2, h2, hA.1, fun n a b => ?_⟩
  rw [hA.2]
  by_cases h : lo ≤ hi + 1
  · have : lo + (hi + 1 - lo) = hi + 1 := by omega
    rw [this]
  · have e1 : Finset.Ico lo (lo + (hi + 1 - lo)) = ∅ := Finset.Ico_eq_empty (by omega)
    have e2 : Finset.Ico lo (hi + 1) = ∅ := Finset.Ico_eq_empty (by omega)
    rw [e1, e2]

/-- Effect of the loop `for (i = lo; i <= hi; i++)`, with the sum rewritten. -/
theorem forLoop_adds_eq (sh : Nat × (Nat → Nat × Nat))
    (body : Nat → CoeffTable R → Option (CoeffTable R))
    (g : Nat → Nat → Nat → Nat → StdComplex R) (lo hi : Nat) (t : CoeffTable R)
    (G : Nat → Nat → Nat → StdComplex R) (ht : t.shape = sh)
    (hG : ∀ n a b, (∑ i in Finset.Ico lo (hi + 1), g i n a b) = G n a b)
    (hbody : ∀ i, lo ≤ i → i ≤ hi → ∀ u : CoeffTable R, u.shape = sh →
      ∃ u2, body i u = some u2 ∧ Adds u u2 (g i)) :
    ∃ t2, forLoop lo hi body t = some t2 ∧ Adds t t2 G := by
  obtain ⟨t2, h2, hA⟩ := forLoop_adds sh body g lo hi t ht hbody
  exact ⟨t2, h2, hA.congr hG⟩

/-- Effect of a loop whose body adds `f i` to the one entry `(n0, a0, b0)`. -/
theorem forLoop_addsAt (sh : Nat × (Nat → Nat × Nat))
    (body : Nat → CoeffTable R → Option (CoeffTable R)) (n0 a0 b0 : Nat)
    (f : Nat → StdComplex R) (lo hi : Nat) (t : CoeffTable R) (ht : t.shape = sh)
    (hbody : ∀ i, lo ≤ i → i ≤ hi → ∀ u : CoeffTable R, u.shape = sh →
      ∃ u2, body i u = some u2 ∧ Adds u u2 (single n0 a0 b0 (f i))) :
    ∃ t2, forLoop lo hi body t = some t2 ∧
      Adds t t2 (single n0 a0 b0 (∑ i in Finset.Ico lo (hi + 1), f i)) := by
  obtain ⟨t2, h2, hA⟩ := forLoop_adds sh body (fun i => single n0 a0 b0 (f i)) lo hi t ht hbody
  refine ⟨t2, h2, hA.congr (fun n a b => ?_)⟩
  simp only [single]
  split_ifs <;> simp

/-- Effect of the loop `for (i = 0; i < hi; i++)`. -/
theorem forBelow_adds (sh : Nat × (Nat → Nat × Nat))
    (body : Nat → CoeffTable R → Option (CoeffTable R))
    (g : Nat → Nat → Nat → Nat → StdComplex R) (hi : Nat) (t : CoeffTable R)
    (ht : t.shape = sh)
    (hbody : ∀ i, i < hi → ∀ u : CoeffTable R, u.shape = sh →
      ∃ u2, body i u = some u2 ∧ Adds u u2 (g i)) :
    ∃ t2, forBelow hi body t = some t2 ∧
      Adds t t2 (fun n a b => ∑ i in Finset.Ico 0 hi, g i n a b) := by
  obtain ⟨t2, h2, hA⟩ := forRange_adds sh body g hi 0 t ht
    (fun i _ h2 u hu => hbody i (by omega) u hu)
  refine ⟨t2, h2, hA.1, fun n a b => ?_⟩
  rw [hA.2, Nat.zero_add]

/-- A sum of point functions over an interval of positions picks one term. -/
theorem sum_pick {M : Type} [AddCommMonoid M] (lo hi x : Nat) (f : Nat → M) :
    (∑ i in Finset.Ico lo hi, if x = i then f i else 0) =
      if lo ≤ x ∧ x < hi then f x else 0 := by
  rw [Finset.sum_ite_eq]
  simp [Finset.mem_Ico]

end Framework


section Sums

variable {R : Type} [CommRing R]

theorem sum_single_inner (n0 a0 lo hi : Nat) (c : Nat → StdComplex R) (n a b : Nat) :
    (∑ b0 in Finset.Ico lo hi, single n0 a0 b0 (c b0) n a b) =
      if n = n0 then (if a = a0 then (if lo ≤ b ∧ b < hi then c b else 0) else 0) else 0 := by
  simp only [single]
  by_cases h1 : n = n0
  · by_cases h2 : a = a0
    · simp only [h1, h2, if_true]
      exact sum_pick lo hi b c
    · simp [h1, h2]
  · simp [h1]

theorem sum_single_mid (n0 b0 lo hi : Nat) (c : Nat → StdComplex R) (n a b : Nat) :
    (∑ a0 in Finset.Ico lo hi, single n0 a0 b0 (c a0) n a b) =
      if n = n0 then (if b = b0 then (if lo ≤ a ∧ a < hi then c a else 0) else 0) else 0 := by
  simp only [single]
  by_cases h1 : n = n0
  · by_cases h2 : b = b0
    · simp only [h1, h2, if_true]
      exact sum_pick lo hi a c
    · simp [h1, h2]
  · simp [h1]

/-- A sum of point functions over the squares `a0, b0 ≤ n0 ≤ p`, columns outermost, picks one
term. -/
theorem sum_single_square (p : Nat) (c : Nat → Nat → Nat → StdComplex R) (n a b : Nat) :
    (∑ n0 in Finset.Ico 0 (p + 1), ∑ b0 in Finset.Ico 0 (n0 + 1), ∑ a0 in Finset.Ico 0 (n0 + 1),
        single n0 a0 b0 (c n0 a0 b0) n a b) =
      if n ≤ p ∧ a ≤ n ∧ b ≤ n then c n a b else 0 := by
  simp only [sum_single_mid]
  have h2 : ∀ n0, (∑ b0 in Finset.Ico 0 (n0 + 1),
      if n = n0 then (if b = b0 then (if 0 ≤ a ∧ a < n0 + 1 then c n0 a b0 else 0) else 0) else 0)
      = if n = n0 then (if a ≤ n0 ∧ b ≤ n0 then c n0 a b else 0) else 0 := by
    intro n0
    by_cases h1 : n = n0
    · simp only [h1, if_true]
      rw [sum_pick]
      by_cases ha : a ≤ n0 <;> by_cases hb : b ≤ n0 <;> simp [ha, hb, Nat.lt_succ_iff]
    · simp [h1]
  simp only [h2]
  rw [sum_pick]
  by_cases hn : n ≤ p <;> simp [hn, Nat.lt_succ_iff]

/-- A sum of point functions over the triangle `b0 ≤ a0 ≤ n0 ≤ p` picks one term. -/
theorem sum_single_triangle (p : Nat) (c : Nat → Nat → Nat → StdComplex R) (n a b : Nat) :
    (∑ n0 in Finset.Ico 0 (p + 1), ∑ a0 in Finset.Ico 0 (n0 + 1), ∑ b0 in Finset.Ico 0 (a0 + 1),
        single n0 a0 b0 (c n0 a0 b0) n a b) =
      if n ≤ p ∧ a ≤ n ∧ b ≤ a then c n a b else 0 := by
  simp only [sum_single_inner]
  have h2 : ∀ n0, (∑ a0 in Finset.Ico 0 (n0 + 1),
      if n = n0 then (if a = a0 then (if 0 ≤ b ∧ b < a0 + 1 then c n0 a0 b else 0) else 0) else 0)
      = if n = n0 then (if a ≤ n0 ∧ b ≤ a then c n0 a b else 0) else 0 := by
    intro n0
    by_cases h1 : n = n0
    · simp only [h1, if_true]
      rw [sum_pick]
      by_cases ha : a ≤ n0 <;> by_cases hb : b ≤ a <;> simp [ha, hb, Nat.lt_succ_iff]
    · simp [h1]
  simp only [h2]
  rw [sum_pick]
  by_cases hn : n ≤ p <;> simp [hn, Nat.lt_succ_iff]

end Sums

theorem toSizeT_natCast (p : Nat) (h : p < SIZE_MOD) : toSizeT (p : Int) = p := by
  unfold toSizeT
  unfold SIZE_MOD at *
  omega

namespace InversePowDistFarFieldExpansion

variable {R : Type} [LinearOrderedField R]

theorem AccumulateLoop_adds (sea : InversePowDistSeriesExpansionAux R) (x y z w : R)
    (p N : Nat) (hp : p ≤ N) (hN : p < SIZE_MOD) (t : CoeffTable R) (hs : t.Shaped N) :
    ∃ t2, AccumulateLoop sea x y z w (p : Int) t = some t2 ∧
      Adds t t2 (fun n a b =>
        if n ≤ p ∧ a ≤ n ∧ b ≤ a then accumulateTerm sea x y z w n a b else 0) := by
  unfold AccumulateLoop
  rw [toSizeT_natCast p hN]
  dsimp only
  refine forLoop_adds_eq t.shape _
    (fun n0 n a b => ∑ a0 in Finset.Ico 0 (n0 + 1), ∑ b0 in Finset.Ico 0 (a0 + 1),
      single n0 a0 b0 (accumulateTerm sea x y z w n0 a0 b0) n a b) 0 p t _ rfl
    (fun n a b => sum_single_triangle p _ n a b) ?_
  intro n0 _ hn0 u hu
  have hsu : u.Shaped N := shaped_of_shape_eq hu hs
  simp only [at_of_shaped hsu (le_trans hn0 hp), Option.bind_eq_bind, Option.some_bind]
  refine forLoop_adds t.shape _
    (fun a0 n a b => ∑ b0 in Finset.Ico 0 (a0 + 1),
      single n0 a0 b0 (accumulateTerm sea x y z w n0 a0 b0) n a b) 0 n0 u hu ?_
  intro a0 _ ha0 u1 hu1
  refine forLoop_adds t.shape _
    (fun b0 => single n0 a0 b0 (accumulateTerm sea x y z w n0 a0 b0)) 0 a0 u1 hu1 ?_
  intro b0 _ hb0 u2 hu2
  have hs2 : u2.Shaped N := shaped_of_shape_eq hu2 hs
  have hd := hs2.2 n0 (le_trans hn0 hp)
  exact addAt_adds u2 n0 a0 b0 _ (by rw [hs2.1]; omega) (by rw [hd.1]; omega)
    (by rw [hd.2]; omega)

theorem Init_order (center : Fin 3 → R) (sea : InversePowDistSeriesExpansionAux R)
    (junk : Nat → Nat → Nat → StdComplex R) (e : InversePowDistFarFieldExpansion R)
    (h : Init center sea junk = some e) : e.order_ = -1 := by
  unfold Init at h
  simp only [Option.bind_eq_bind, Option.pure_def, Option.bind_eq_some] at h
  obtain ⟨c, _, hc⟩ := h
  simp only [Option.some.injEq] at hc
  rw [← hc]

/-- C1. `EvaluateField` on an expansion whose order is negative, in particular on one that
`Init` has just produced, returns exactly 0 for every point and every order; the value does
not depend on the coefficient table or on the auxiliary object, which may be arbitrary. -/
theorem EvaluateField_empty (e : InversePowDistFarFieldExpansion R) (v : Fin 3 → R)
    (order : Int)
    (h : e.order_ < 0 ∨ ∃ center sea junk, Init center sea junk = some e) :
    EvaluateField e v order = some 0 := by
  have hneg : e.order_ < 0 := by
    rcases h with h | ⟨center, sea, junk, h⟩
    · exact h
    · rw [Init_order center sea junk e h]; decide
  unfold EvaluateField
  rw [if_pos hneg]

/-- Effect of `Accumulate` on a valid state, for `0 ≤ order ≤ MaxOrder`. -/
theorem Accumulate_effect (e : InversePowDistFarFieldExpansion R) (v : Fin 3 → R)
    (weight : R) (order : Int) (hvalid : e.Valid) (h0 : 0 ≤ order)
    (h1 : order ≤ e.sea_.max_order) :
    ∃ e2, Accumulate e v weight order = some e2 ∧ e2.Valid ∧ e2.sea_ = e.sea_ ∧
      e2.center_ = e.center_ ∧ e2.order_ = max e.order_ order ∧
      e2.coeffs_.shape = e.coeffs_.shape ∧
      ∀ n a b : Nat, e2.coefficient n a b = e.coefficient n a b +
        if b ≤ a ∧ a ≤ n ∧ (n : Int) ≤ order then
          accumulateTerm e.sea_ (v 0 - e.center_ 0) (v 1 - e.center_ 1) (v 2 - e.center_ 2)
            weight n a b
        else 0 := by
  obtain ⟨p, rfl⟩ := Int.eq_ofNat_of_zero_le h0
  have hmax := hvalid.max_le
  have hpN : p ≤ e.sea_.max_order.toNat := by omega
  have hpS : p < SIZE_MOD := by
    unfold INT_MAX at hmax
    unfold SIZE_MOD
    omega
  obtain ⟨t2, ht2, hA⟩ := AccumulateLoop_adds e.sea_ (v 0 - e.center_ 0) (v 1 - e.center_ 1)
    (v 2 - e.center_ 2) weight p _ hpN hpS e.coeffs_ hvalid.shaped
  refine ⟨{ e with coeffs_ := t2, order_ := max e.order_ (p : Int) }, ?_, ?_, rfl, rfl, rfl,
    hA.1, ?_⟩
  · simp [Accumulate, ht2]
  · exact ⟨hvalid.max_nonneg, hvalid.max_le, shaped_of_shape_eq hA.1 hvalid.shaped,
      max_le hvalid.order_le h1⟩
  · intro n a b
    have hc := hA.2 n a b
    beta_reduce at hc
    by_cases h : n ≤ p ∧ a ≤ n ∧ b ≤ a
    · rw [if_pos h] at hc
      rw [if_pos ⟨h.2.2, h.2.1, by omega⟩]
      exact hc
    · rw [if_neg h] at hc
      rw [if_neg (fun hc2 => h ⟨by omega, hc2.2.1, hc2.1⟩)]
      exact hc

/-- C2. With `0 ≤ order ≤ MaxOrder` and a valid state, `Accumulate(v, weight, order)`
returns, leaves the center as it is, adds to every entry `(n, a, b)` with
`b ≤ a ≤ n ≤ order` exactly `weight * z^(n-a) * (eta^b * rho^b) * (xi^(a-b) * rho^(a-b))`, where
`(x, y, z) = v - center` and `(rho, eta, xi) = ConvertToComplexForm(x, y)`, and leaves every other
entry of the table and the shape of the table unchanged. -/
theorem Accumulate_adds_terms (e : InversePowDistFarFieldExpansion R) (v : Fin 3 → R)
    (weight : R) (order : Int) (hvalid : e.Valid) (h0 : 0 ≤ order)
    (h1 : order ≤ e.sea_.max_order) :
    ∃ e2, Accumulate e v weight order = some e2 ∧ e2.center_ = e.center_ ∧
      e2.coeffs_.shape = e.coeffs_.shape ∧
      (∀ n a b : Nat, b ≤ a → a ≤ n → (n : Int) ≤ order →
        e2.coefficient n a b = e.coefficient n a b +
          StdComplex.rmul (weight * (v 2 - e.center_ 2) ^ (n - a))
              ((e.sea_.PowWithRootOfUnity
                  (e.sea_.ConvertToComplexForm (v 0 - e.center_ 0) (v 1 - e.center_ 1)).2.1 b).mulR
                ((e.sea_.ConvertToComplexForm (v 0 - e.center_ 0) (v 1 - e.center_ 1)).1 ^ b)) *
            (e.sea_.PowWithRootOfUnity
                (e.sea_.ConvertToComplexForm (v 0 - e.center_ 0) (v 1 - e.center_ 1)).2.2
                (a - b)).mulR
              ((e.sea_.ConvertToComplexForm (v 0 - e.center_ 0) (v 1 - e.center_ 1)).1 ^
                (a - b))) ∧
      (∀ n a b : Nat, ¬ (b ≤ a ∧ a ≤ n ∧ (n : Int) ≤ order) →
        e2.coefficient n a b = e.coefficient n a b) := by
  obtain ⟨e2, he2, _, _, hcen, _, hsh, hco⟩ := Accumulate_effect e v weight order hvalid h0 h1
  refine ⟨e2, he2, hcen, hsh, ?_, ?_⟩
  · intro n a b hb ha hn
    rw [hco n a b, if_pos ⟨hb, ha, hn⟩]
    rfl
  · intro n a b hnot
    rw [hco n a b, if_neg hnot, add_zero]

/-! ### The table that `Init` allocates -/

theorem forRange_inv {σ : Type} (body : Nat → σ → Option σ) (P : Nat → σ → Prop) (cnt : Nat) :
    ∀ (lo : Nat) (s : σ), P lo s →
      (∀ i, lo ≤ i → i < lo + cnt → ∀ u, P i u → ∃ u2, body i u = some u2 ∧ P (i + 1) u2) →
      ∃ s2, forRange body lo cnt s = some s2 ∧ P (lo + cnt) s2 := by
  induction cnt with
  | zero =>
    intro lo s hs _
    exact ⟨s, rfl, hs⟩
  | succ c ih =>
    intro lo s hs hbody
    obtain ⟨s1, h1, hP1⟩ := hbody lo (le_refl _) (by omega) s hs
    obtain ⟨s2, h2, hP2⟩ := ih (lo + 1) s1 hP1
      (fun i hi1 hi2 u hu => hbody i (by omega) (by omega) u hu)
    refine ⟨s2, ?_, ?_⟩
    · simp [forRange, h1, h2]
    · have : lo + 1 + c = lo + (c + 1) := by omega
      rw [← this]
      exact hP2

theorem forLoop_inv {σ : Type} (body : Nat → σ → Option σ) (P : Nat → σ → Prop) (hi : Nat)
    (s : σ) (hs : P 0 s)
    (hbody : ∀ i, i ≤ hi → ∀ u, P i u → ∃ u2, body i u = some u2 ∧ P (i + 1) u2) :
    ∃ s2, forLoop 0 hi body s = some s2 ∧ P (hi + 1) s2 := by
  obtain ⟨s2, h2, hP⟩ := forRange_inv body P (hi + 1 - 0) 0 s hs
    (fun i _ h u hu => hbody i (by omega) u hu)
  refine ⟨s2, h2, ?_⟩
  have : 0 + (hi + 1 - 0) = hi + 1 := by omega
  rw [← this]
  exact hP

/-- While `Init` clears the matrix of order `n`: the table has its final size, the other
matrices are those of `t`, the matrix of order `n` is allocated and vanishes on `Z`. -/
theorem clear_entry (t u : CoeffTable R) (size n j k : Nat) (Z : Nat → Nat → Prop)
    (hn : n < size) (hj : j ≤ n) (hk : k ≤ n) (hu : Clearing t size n Z u) :
    ∃ u2, (do
        let m ← u.at? n
        let m2 ← m.set j k 0
        u.put n m2) = some u2 ∧ Clearing t size n (fun a b => Z a b ∨ (a = j ∧ b = k)) u2 := by
  obtain ⟨h1, h2, h3, h4, h5⟩ := hu
  have hn2 : n < u.size := by rw [h1]; exact hn
  have hj2 : j < (u.elem n).n_rows := by rw [h3]; omega
  have hk2 : k < (u.elem n).n_cols := by rw [h4]; omega
  refine ⟨⟨u.size, fun k2 => if k2 = n then
      ⟨(u.elem n).n_rows, (u.elem n).n_cols,
        fun i c => if i = j ∧ c = k then 0 else (u.elem n).elems i c⟩
      else u.elem k2⟩, ?_, h1, ?_, ?_, ?_, ?_⟩
  · simp only [ArrayList.at?, GenMatrix.set, ArrayList.put, hn2, hj2, hk2, and_self, if_true,
      Option.bind_eq_bind, Option.some_bind]
  · intro k2 hk2n
    simp only [hk2n, if_false]
    exact h2 k2 hk2n
  · simpa using h3
  · simpa using h4
  · intro a b hab
    simp only [if_true]
    by_cases hc : a = j ∧ b = k
    · simp [hc]
    · rw [if_neg hc]
      rcases hab with hab | hab
      · exact h5 a b hab
      · exact absurd hab hc

theorem Clearing_mono {t u : CoeffTable R} {size n : Nat} {Z Z2 : Nat → Nat → Prop}
    (h : Clearing t size n Z u) (hZ : ∀ a b, Z2 a b → Z a b) : Clearing t size n Z2 u :=
  ⟨h.1, h.2.1, h.2.2.1, h.2.2.2.1, fun a b hab => h.2.2.2.2 a b (hZ a b hab)⟩

/-- What `Init` has established once the orders below `n` are done. -/
theorem Init_spec (center : Fin 3 → R) (sea : InversePowDistSeriesExpansionAux R)
    (junk : Nat → Nat → Nat → StdComplex R) (h0 : 0 ≤ sea.max_order)
    (h1 : sea.max_order ≤ INT_MAX) :
    ∃ e, Init center sea junk = some e ∧ e.center_ = center ∧ e.order_ = -1 ∧ e.sea_ = sea ∧
      Cleared (sea.max_order.toNat + 1) (sea.max_order.toNat + 1) e.coeffs_ := by
  obtain ⟨N, hN⟩ := Int.eq_ofNat_of_zero_le h0
  have hNS : N + 1 < SIZE_MOD := by
    unfold INT_MAX at h1
    unfold SIZE_MOD
    omega
  have e1 : toSizeT sea.max_order = N := by
    rw [hN]; exact toSizeT_natCast N (by omega)
  have e2 : toSizeT (sea.max_order + 1) = N + 1 := by
    rw [hN]; exact toSizeT_natCast (N + 1) hNS
  have e3 : sea.max_order.toNat = N := by rw [hN]; rfl
  have hloop : ∃ t2, forLoop 0 N (fun n t => do
      let _ ← t.at? n
      let t1 ← t.put n (GenMatrix.Init (n + 1) (n + 1) (junk n))
      forLoop 0 n (fun j t =>
        forLoop 0 n (fun k t => do
          let m ← t.at? n
          let m2 ← m.set j k 0
          t.put n m2) t) t1)
      (ArrayList.Init (N + 1) (GenMatrix.Init 0 0 (junk 0)) : CoeffTable R) = some t2 ∧
      Cleared (N + 1) (N + 1) t2 := by
    refine forLoop_inv _ (Cleared (N + 1)) N _ ⟨rfl, fun k hk => absurd hk (by omega)⟩ ?_
    intro n hn u hu
    have hnu : n < u.size := by rw [hu.1]; omega
    simp only [ArrayList.at?, ArrayList.put, hnu, if_true, Option.bind_eq_bind, Option.some_bind]
    have hstart : Clearing u (N + 1) n (fun a b => a < 0 ∧ b ≤ n)
        ⟨u.size, fun k => if k = n then GenMatrix.Init (n + 1) (n + 1) (junk n) else u.elem k⟩ :=
      ⟨hu.1, fun k hk => by simp [hk], by simp [GenMatrix.Init], by simp [GenMatrix.Init],
        fun a b hab => absurd hab (by omega)⟩
    obtain ⟨u2, hu2, hC⟩ := forLoop_inv
      (fun j t => forLoop 0 n (fun k t => do
          let m ← t.at? n
          let m2 ← m.set j k 0
          t.put n m2) t)
      (fun j => Clearing u (N + 1) n (fun a b => a < j ∧ b ≤ n)) n _ hstart
      (fun j hj w hw => by
        obtain ⟨w2, hw2, hC2⟩ := forLoop_inv
          (fun k t => do
            let m ← t.at? n
            let m2 ← m.set j k 0
            t.put n m2)
          (fun k => Clearing u (N + 1) n (fun a b => (a < j ∧ b ≤ n) ∨ (a = j ∧ b < k))) n w
          (Clearing_mono hw (fun a b hab => by omega))
          (fun k hk x hx => by
            obtain ⟨x2, hx2, hC3⟩ := clear_entry u x (N + 1) n j k _ (by omega) hj hk hx
            exact ⟨x2, hx2, Clearing_mono hC3 (fun a b hab => by omega)⟩)
        exact ⟨w2, hw2, Clearing_mono hC2 (fun a b hab => by omega)⟩)
    refine ⟨u2, hu2, hC.1, fun k hk => ?_⟩
    by_cases hkn : k = n
    · subst hkn
      exact ⟨hC.2.2.1, hC.2.2.2.1, fun a b ha hb => hC.2.2.2.2 a b ⟨by omega, hb⟩⟩
    · rw [hC.2.1 k hkn]
      exact hu.2 k (by omega)
  obtain ⟨t2, ht2, hcl⟩ := hloop
  refine ⟨{ center_ := center, coeffs_ := t2, order_ := -1, sea_ := sea }, ?_, rfl, rfl, rfl, ?_⟩
  · unfold Init
    rw [e1, e2]
    simp only [Option.bind_eq_bind, Option.pure_def] at ht2 ⊢
    rw [ht2]
    rfl
  · rw [e3]; exact hcl

theorem Init_valid (center : Fin 3 → R) (sea : InversePowDistSeriesExpansionAux R)
    (junk : Nat → Nat → Nat → StdComplex R) (e : InversePowDistFarFieldExpansion R)
    (h0 : 0 ≤ sea.max_order) (h1 : sea.max_order ≤ INT_MAX)
    (h : Init center sea junk = some e) :
    e.Valid ∧ e.sea_ = sea ∧ e.center_ = center ∧ e.order_ = -1 ∧
      ∀ n a b, n ≤ sea.max_order.toNat → a ≤ n → b ≤ n → e.coefficient n a b = 0 := by
  obtain ⟨e2, he2, hcen, hord, hsea, hcl⟩ := Init_spec center sea junk h0 h1
  rw [h] at he2
  simp only [Option.some.injEq] at he2
  subst he2
  refine ⟨⟨by rw [hsea]; exact h0, by rw [hsea]; exact h1, ?_, ?_⟩, hsea, hcen, hord, ?_⟩
  · rw [hsea]
    exact ⟨hcl.1, fun n hn => ⟨(hcl.2 n (by omega)).1, (hcl.2 n (by omega)).2.1⟩⟩
  · rw [hsea, hord]; omega
  · intro n a b hn ha hb
    exact (hcl.2 n (by omega)).2.2 a b ha hb

/-! ### The branch of `TranslateFromFarField` for coinciding centers -/

theorem SameCenter_adds (e se : InversePowDistFarFieldExpansion R) (p N : Nat) (hp : p ≤ N)
    (hN : p < SIZE_MOD) (hord : se.order_ = (p : Int)) (hs : e.coeffs_.Shaped N)
    (hse : se.coeffs_.Shaped N) :
    ∃ e2, TranslateFromFarFieldSameCenter e se = some e2 ∧ e2.center_ = e.center_ ∧
      e2.order_ = e.order_ ∧ e2.sea_ = e.sea_ ∧
      Adds e.coeffs_ e2.coeffs_ (fun n i j =>
        if n ≤ p ∧ i ≤ n ∧ j ≤ n then se.coefficient n i j else 0) := by
  have hloop : ∃ t2, forLoop 0 (toSizeT se.order_) (fun n_prime t => do
      let dest ← t.at? n_prime
      forBelow dest.n_cols (fun j t =>
        forBelow dest.n_rows (fun i t => do
          let src ← se.coeffs_.at? n_prime
          let c ← src.get i j
          t.addAt n_prime i j c) t) t) e.coeffs_ = some t2 ∧
      Adds e.coeffs_ t2 (fun n i j =>
        if n ≤ p ∧ i ≤ n ∧ j ≤ n then se.coefficient n i j else 0) := by
    rw [hord, toSizeT_natCast p hN]
    refine forLoop_adds_eq e.coeffs_.shape _
      (fun n0 n a b => ∑ b0 in Finset.Ico 0 (n0 + 1), ∑ a0 in Finset.Ico 0 (n0 + 1),
        single n0 a0 b0 (se.coefficient n0 a0 b0) n a b) 0 p e.coeffs_ _ rfl
      (fun n a b => sum_single_square p _ n a b) ?_
    intro n0 _ hn0 u hu
    have hsu : u.Shaped N := shaped_of_shape_eq hu hs
    have hd := hsu.2 n0 (le_trans hn0 hp)
    simp only [at_of_shaped hsu (le_trans hn0 hp), Option.bind_eq_bind, Option.some_bind, hd.1,
      hd.2]
    refine forBelow_adds e.coeffs_.shape _
      (fun b0 n a b => ∑ a0 in Finset.Ico 0 (n0 + 1),
        single n0 a0 b0 (se.coefficient n0 a0 b0) n a b) (n0 + 1) u hu ?_
    intro b0 hb0 u1 hu1
    refine forBelow_adds e.coeffs_.shape _
      (fun a0 => single n0 a0 b0 (se.coefficient n0 a0 b0)) (n0 + 1) u1 hu1 ?_
    intro a0 ha0 u2 hu2
    have hs2 : u2.Shaped N := shaped_of_shape_eq hu2 hs
    have hd2 := hs2.2 n0 (le_trans hn0 hp)
    simp only [at_of_shaped hse (le_trans hn0 hp), Option.bind_eq_bind, Option.some_bind,
      get_of_shaped hse (le_trans hn0 hp) (Nat.lt_succ_iff.mp ha0) (Nat.lt_succ_iff.mp hb0)]
    exact addAt_adds u2 n0 a0 b0 _ (by rw [hs2.1]; omega) (by rw [hd2.1]; omega)
      (by rw [hd2.2]; omega)
  obtain ⟨t2, ht2, hA⟩ := hloop
  refine ⟨{ e with coeffs_ := t2 }, ?_, rfl, rfl, rfl, hA⟩
  unfold TranslateFromFarFieldSameCenter
  simp only [Option.bind_eq_bind, Option.pure_def] at ht2 ⊢
  rw [ht2]
  rfl

/-- Effect of `TranslateFromFarField` when the centers coincide within `DBL_EPSILON`. -/
theorem TranslateFromFarField_coincident (e se : InversePowDistFarFieldExpansion R)
    (hvalid : e.Valid) (hse : se.coeffs_.Shaped e.sea_.max_order.toNat) (h0 : 0 ≤ se.order_)
    (h1 : se.order_ ≤ e.sea_.max_order)
    (hc : ∀ i : Fin 3, |se.center_ i - e.center_ i| < DBL_EPSILON) :
    ∃ e2, TranslateFromFarField e se = some e2 ∧ e2.center_ = e.center_ ∧
      e2.order_ = e.order_ ∧ e2.sea_ = e.sea_ ∧ e2.coeffs_.shape = e.coeffs_.shape ∧
      ∀ n i j : Nat, e2.coefficient n i j = e.coefficient n i j +
        if (n : Int) ≤ se.order_ ∧ i ≤ n ∧ j ≤ n then se.coefficient n i j else 0 := by
  obtain ⟨p, hp⟩ := Int.eq_ofNat_of_zero_le h0
  have hmax := hvalid.max_le
  have hpN : p ≤ e.sea_.max_order.toNat := by omega
  have hpS : p < SIZE_MOD := by
    unfold INT_MAX at hmax
    unfold SIZE_MOD
    omega
  obtain ⟨e2, he2, hcen, hord, hsea, hA⟩ := SameCenter_adds e se p _ hpN hpS hp hvalid.shaped
    hse
  refine ⟨e2, ?_, hcen, hord, hsea, hA.1, fun n i j => ?_⟩
  · unfold TranslateFromFarField
    rw [if_neg (by omega)]
    have hx : ∀ i : Fin 3, |-(e.center_ i - se.center_ i)| < DBL_EPSILON := by
      intro i
      rw [neg_sub]
      exact hc i
    simp only [hx, and_self, if_true]
    exact he2
  · have hco := hA.2 n i j
    beta_reduce at hco
    by_cases h : n ≤ p ∧ i ≤ n ∧ j ≤ n
    · rw [if_pos h] at hco
      rw [if_pos ⟨by omega, h.2.1, h.2.2⟩]
      exact hco
    · rw [if_neg h] at hco
      rw [if_neg (fun h2 => h ⟨by omega, h2.2.1, h2.2.2⟩)]
      exact hco

/-! ### Concrete inputs -/

theorem Sample_emptyAt_valid (N : Nat) (c : Fin 3 → ℚ) (hN : (N : Int) ≤ INT_MAX) :
    (Sample.emptyAt N c).Valid := by
  refine ⟨?_, hN, ?_, ?_⟩
  · show (0 : Int) ≤ (N : Int)
    omega
  · show (Sample.zeroTable N).Shaped (N : Int).toNat
    refine ⟨rfl, fun n _ => ⟨rfl, rfl⟩⟩
  · show (-1 : Int) ≤ (N : Int)
    omega

/-- C1 at an empty expansion of maximum order 2, the point `(1, 2, 3)` and order 2. -/
theorem EvaluateField_empty_witness :
    EvaluateField (Sample.emptyAt 2 (Sample.pt 0 0 0)) (Sample.pt 1 2 3) 2 = some 0 :=
  EvaluateField_empty (Sample.emptyAt 2 (Sample.pt 0 0 0)) (Sample.pt 1 2 3) 2
    (Or.inl (by decide))

/-- C2 at an empty expansion of maximum order 1 around the origin, the point `(0, 0, 3)`,
weight 2 and order 1: the entry `(1, 0, 0)` becomes `2 * 3 = 6`, the entry `(1, 1, 0)` stays 0. -/
theorem Accumulate_adds_terms_witness :
    ∃ e2, Accumulate (Sample.emptyAt 1 (Sample.pt 0 0 0)) (Sample.pt 0 0 3) 2 1 = some e2 ∧
      e2.coefficient 1 0 0 = ⟨6, 0⟩ ∧ e2.coefficient 1 1 0 = 0 := by
  obtain ⟨e2, he2, _, _, hin, _⟩ := Accumulate_adds_terms (Sample.emptyAt 1 (Sample.pt 0 0 0))
    (Sample.pt 0 0 3) 2 1 (Sample_emptyAt_valid 1 _ (by decide)) (by decide) (by decide)
  refine ⟨e2, he2, ?_, ?_⟩
  · rw [hin 1 0 0 (le_refl _) (by decide) (by decide)]
    ext
    · simp [Sample.emptyAt, Sample.aux, Sample.pt, Sample.zeroTable, coefficient,
        CoeffTable.coeff]
      norm_num
    · simp [Sample.emptyAt, Sample.aux, Sample.pt, Sample.zeroTable, coefficient,
        CoeffTable.coeff]
  · rw [hin 1 1 0 (by decide) (le_refl _) (by decide)]
    ext <;> simp [Sample.emptyAt, Sample.aux, Sample.pt, Sample.zeroTable, coefficient,
      CoeffTable.coeff]

theorem Sample_monopoleWith_valid (N : Nat) (c : Fin 3 → ℚ) (w : ℚ) (ord : Int)
    (m : Nat → Nat → Nat → ℚ) (hN : (N : Int) ≤ INT_MAX) (hord : ord ≤ (N : Int)) :
    (Sample.monopoleWith N c w ord m).Valid := by
  refine ⟨?_, hN, ?_, hord⟩
  · show (0 : Int) ≤ (N : Int)
    omega
  · show CoeffTable.Shaped _ (N : Int).toNat
    refine ⟨rfl, fun n _ => ⟨rfl, rfl⟩⟩

theorem Sample_monopoleAt_valid (N : Nat) (c : Fin 3 → ℚ) (w : ℚ) (ord : Int)
    (hN : (N : Int) ≤ INT_MAX) (hord : ord ≤ (N : Int)) :
    (Sample.monopoleAt N c w ord).Valid :=
  Sample_monopoleWith_valid N c w ord Sample.constants hN hord

theorem Sample_term000 (N : Int) (m : Nat → Nat → Nat → ℚ) (x y z w : ℚ) :
    accumulateTerm (Sample.aux N m) x y z w 0 0 0 = ⟨w, 0⟩ := by
  unfold accumulateTerm
  ext <;> simp [Sample.aux]

/-- C3, evaluated. With the data points `(0, 0, 1)`, `(0, 0, 2)` and the weights `1`, `2`,
`AccumulateCoeffs(data, weights, 0, 2, 0)` on an empty expansion leaves the coefficient
`(0, 0, 0)` at `2 = 1 + 1`, whereas accumulating each point with its own weight leaves it at
`3 = 1 + 2`: the second point is accumulated with `weights[0]`. -/
theorem AccumulateCoeffs_first_weight :
    ∃ eb e1 es col0 col1,
      GetColumnPtr Sample.twoPoints 0 = some col0 ∧
      GetColumnPtr Sample.twoPoints 1 = some col1 ∧
      Sample.twoWeights.at? 0 = some 1 ∧ Sample.twoWeights.at? 1 = some 2 ∧
      AccumulateCoeffs (Sample.emptyAt 0 (Sample.pt 0 0 0)) Sample.twoPoints Sample.twoWeights
        0 2 0 = some eb ∧
      Accumulate (Sample.emptyAt 0 (Sample.pt 0 0 0)) col0 1 0 = some e1 ∧
      Accumulate e1 col1 2 0 = some es ∧
      eb.coefficient 0 0 0 = ⟨2, 0⟩ ∧ es.coefficient 0 0 0 = ⟨3, 0⟩ := by
  have hv0 := Sample_emptyAt_valid 0 (Sample.pt 0 0 0) (by decide)
  obtain ⟨e1, he1, hv1, hsea1, hcen1, _, _, hco1⟩ := Accumulate_effect
    (Sample.emptyAt 0 (Sample.pt 0 0 0)) (fun i : Fin 3 => Sample.twoPoints.elems i.val 0) 1 0
    hv0 (le_refl _) (by decide)
  have hmax1 : (0 : Int) ≤ e1.sea_.max_order := by rw [hsea1]; decide
  obtain ⟨eb, heb, _, _, _, _, _, hcob⟩ := Accumulate_effect e1
    (fun i : Fin 3 => Sample.twoPoints.elems i.val 1) 1 0 hv1 (le_refl _) hmax1
  obtain ⟨es, hes, _, _, _, _, _, hcos⟩ := Accumulate_effect e1
    (fun i : Fin 3 => Sample.twoPoints.elems i.val 1) 2 0 hv1 (le_refl _) hmax1
  have h1 : e1.coefficient 0 0 0 = ⟨1, 0⟩ := by
    rw [hco1 0 0 0, if_pos ⟨le_refl _, le_refl _, by decide⟩]
    show (0 : StdComplex ℚ) + accumulateTerm (Sample.aux 0 Sample.constants) _ _ _ 1 0 0 0 = _
    rw [Sample_term000, zero_add]
  have hs0 : toSizeT 0 = 0 := by decide
  have hs2 : toSizeT 2 = 2 := by decide
  refine ⟨eb, e1, es, _, _, rfl, rfl, rfl, rfl, ?_, he1, hes, ?_, ?_⟩
  · unfold AccumulateCoeffs
    rw [hs0, hs2]
    have hw : Sample.twoWeights.at? 0 = some 1 := rfl
    have hc0 : GetColumnPtr Sample.twoPoints 0
        = some (fun i : Fin 3 => Sample.twoPoints.elems i.val 0) := rfl
    have hc1 : GetColumnPtr Sample.twoPoints 1
        = some (fun i : Fin 3 => Sample.twoPoints.elems i.val 1) := rfl
    simp only [forRange, hw, hc0, hc1, Option.bind_eq_bind, Option.some_bind, he1, heb]
  · rw [hcob 0 0 0, if_pos ⟨le_refl _, le_refl _, by decide⟩, h1, hsea1]
    show _ + accumulateTerm (Sample.aux 0 Sample.constants) _ _ _ 1 0 0 0 = _
    rw [Sample_term000]
    ext
    · show (1 : ℚ) + 1 = 2
      norm_num
    · show (0 : ℚ) + 0 = 0
      norm_num
  · rw [hcos 0 0 0, if_pos ⟨le_refl _, le_refl _, by decide⟩, h1, hsea1]
    show _ + accumulateTerm (Sample.aux 0 Sample.constants) _ _ _ 2 0 0 0 = _
    rw [Sample_term000]
    ext
    · show (1 : ℚ) + 2 = 3
      norm_num
    · show (0 : ℚ) + 0 = 0
      norm_num

/-- C4, evaluated. A child of order 0 is merged into an empty receiver (order -1) around the
same center: the coefficient `(0, 0, 0)` of the child is added, but the order of the receiver
stays -1 instead of becoming `max(-1, 0) = 0`. -/
theorem TranslateFromFarField_coincident_keeps_order :
    ∃ e2, TranslateFromFarField (Sample.emptyAt 0 (Sample.pt 0 0 0))
        (Sample.monopoleAt 0 (Sample.pt 0 0 0) 1 0) = some e2 ∧
      (Sample.monopoleAt 0 (Sample.pt 0 0 0) 1 0).order_ = 0 ∧
      max (Sample.emptyAt 0 (Sample.pt 0 0 0)).order_
        (Sample.monopoleAt 0 (Sample.pt 0 0 0) 1 0).order_ = 0 ∧
      e2.order_ = -1 ∧ e2.coefficient 0 0 0 = ⟨1, 0⟩ := by
  obtain ⟨e2, he2, _, hord, _, _, hco⟩ := TranslateFromFarField_coincident
    (Sample.emptyAt 0 (Sample.pt 0 0 0)) (Sample.monopoleAt 0 (Sample.pt 0 0 0) 1 0)
    (Sample_emptyAt_valid 0 _ (by decide))
    (Sample_monopoleAt_valid 0 (Sample.pt 0 0 0) 1 0 (by decide) (by decide)).shaped (le_refl _)
    (le_refl _)
    (fun i => by
      show |Sample.pt 0 0 0 i - Sample.pt 0 0 0 i| < DBL_EPSILON
      rw [sub_self, abs_zero]
      unfold DBL_EPSILON
      positivity)
  refine ⟨e2, he2, rfl, rfl, hord, ?_⟩
  rw [hco 0 0 0, if_pos ⟨le_refl _, le_refl _, le_refl _⟩]
  show (0 : StdComplex ℚ) + (⟨1, 0⟩ : StdComplex ℚ) = _
  rw [zero_add]

/-- C6. When the receiver and the child are valid states with tables of the same shape, the
child has a non-negative order and each coordinate of the two centers differs by less than
`DBL_EPSILON` in absolute value, `TranslateFromFarField(child)` returns, adds to every entry
`(n, i, j)` of every matrix of order `n ≤ child.order` exactly the entry `(n, i, j)` of the
child, and leaves every entry of order `n > child.order` unchanged. -/
theorem TranslateFromFarField_coincident_adds (e se : InversePowDistFarFieldExpansion R)
    (hvalid : e.Valid) (hse : se.Valid) (hsize : se.coeffs_.size = e.coeffs_.size)
    (h0 : 0 ≤ se.order_)
    (hc : ∀ i : Fin 3, |se.center_ i - e.center_ i| < DBL_EPSILON) :
    ∃ e2, TranslateFromFarField e se = some e2 ∧
      (∀ n i j : Nat, (n : Int) ≤ se.order_ → i ≤ n → j ≤ n →
        e2.coefficient n i j = e.coefficient n i j + se.coefficient n i j) ∧
      (∀ n i j : Nat, se.order_ < (n : Int) →
        e2.coefficient n i j = e.coefficient n i j) := by
  obtain ⟨hsh, h1⟩ := child_shaped e se hvalid hse hsize
  obtain ⟨e2, he2, _, _, _, _, hco⟩ := TranslateFromFarField_coincident e se hvalid hsh h0 h1 hc
  refine ⟨e2, he2, ?_, ?_⟩
  · intro n i j hn hi hj
    rw [hco n i j, if_pos ⟨hn, hi, hj⟩]
  · intro n i j hn
    rw [hco n i j, if_neg (fun h => by omega), add_zero]

/-- C6 at two expansions around the origin that hold the coefficients `(0, 0, 0) = 2` and
`(0, 0, 0) = 3`: the receiver ends with `(0, 0, 0) = 5`. -/
theorem TranslateFromFarField_coincident_adds_witness :
    ∃ e2, TranslateFromFarField (Sample.monopoleAt 1 (Sample.pt 0 0 0) 2 0)
        (Sample.monopoleAt 1 (Sample.pt 0 0 0) 3 0) = some e2 ∧
      e2.coefficient 0 0 0 = ⟨5, 0⟩ ∧ e2.coefficient 1 1 0 = 0 := by
  obtain ⟨e2, he2, hin, hout⟩ := TranslateFromFarField_coincident_adds
    (Sample.monopoleAt 1 (Sample.pt 0 0 0) 2 0) (Sample.monopoleAt 1 (Sample.pt 0 0 0) 3 0)
    (Sample_monopoleAt_valid 1 _ 2 0 (by decide) (by decide))
    (Sample_monopoleAt_valid 1 _ 3 0 (by decide) (by decide)) rfl (le_refl _)
    (fun i => by
      show |Sample.pt 0 0 0 i - Sample.pt 0 0 0 i| < DBL_EPSILON
      rw [sub_self, abs_zero]
      unfold DBL_EPSILON
      positivity)
  refine ⟨e2, he2, ?_, ?_⟩
  · rw [hin 0 0 0 (le_refl _) (le_refl _) (le_refl _)]
    ext
    · show (2 : ℚ) + 3 = 5
      norm_num
    · show (0 : ℚ) + 0 = 0
      norm_num
  · rw [hout 1 1 0 (by decide)]
    rfl

/-! ### The coefficient of order 0 -/

theorem accumulateTerm_zero (sea : InversePowDistSeriesExpansionAux R)
    (hpow : ∀ z, sea.PowWithRootOfUnity z 0 = 1) (x y z w : R) :
    accumulateTerm sea x y z w 0 0 0 = ⟨w, 0⟩ := by
  unfold accumulateTerm
  ext <;> simp [hpow]

theorem AccumulateSeq_monopole (sea : InversePowDistSeriesExpansionAux R)
    (hpow : ∀ z, sea.PowWithRootOfUnity z 0 = 1) (calls : List ((Fin 3 → R) × R × Int)) :
    ∀ e : InversePowDistFarFieldExpansion R, e.Valid → e.sea_ = sea →
      (∀ c ∈ calls, 0 ≤ c.2.2 ∧ c.2.2 ≤ sea.max_order) →
      ∃ e2, AccumulateSeq e calls = some e2 ∧ e2.Valid ∧ e2.sea_ = sea ∧
        e2.coefficient 0 0 0 = e.coefficient 0 0 0 + ⟨(calls.map (fun c => c.2.1)).sum, 0⟩ := by
  induction calls with
  | nil =>
    intro e hv hs _
    refine ⟨e, rfl, hv, hs, ?_⟩
    ext <;> simp
  | cons c cs ih =>
    intro e hv hs hcalls
    have hc := hcalls c (List.mem_cons_self c cs)
    obtain ⟨e1, he1, hv1, hs1, _, _, _, hco1⟩ := Accumulate_effect e c.1 c.2.1 c.2.2 hv hc.1
      (by rw [hs]; exact hc.2)
    obtain ⟨e2, he2, hv2, hs2, hco2⟩ := ih e1 hv1 (hs1.trans hs)
      (fun d hd => hcalls d (List.mem_cons_of_mem c hd))
    refine ⟨e2, ?_, hv2, hs2, ?_⟩
    · simp [AccumulateSeq, he1, he2]
    · rw [hco2, hco1 0 0 0, if_pos ⟨le_refl _, le_refl _, hc.1⟩, hs,
        accumulateTerm_zero sea hpow]
      ext <;> simp [add_assoc]

/-- C10. On the state that `Init` produces, every sequence of calls of `Accumulate` with
orders between 0 and `MaxOrder` returns and leaves in the coefficient `(0, 0, 0)` the sum of
the weights passed, whatever the points are. The auxiliary object is assumed to return 1 for
the power 0 of a root of unity. -/
theorem AccumulateSeq_order_zero_coefficient (center : Fin 3 → R)
    (sea : InversePowDistSeriesExpansionAux R) (junk : Nat → Nat → Nat → StdComplex R)
    (calls : List ((Fin 3 → R) × R × Int)) (h0 : 0 ≤ sea.max_order)
    (h1 : sea.max_order ≤ INT_MAX) (hpow : ∀ z, sea.PowWithRootOfUnity z 0 = 1)
    (hcalls : ∀ c ∈ calls, 0 ≤ c.2.2 ∧ c.2.2 ≤ sea.max_order) :
    ∃ e0 e, Init center sea junk = some e0 ∧ AccumulateSeq e0 calls = some e ∧
      e.coefficient 0 0 0 = ⟨(calls.map (fun c => c.2.1)).sum, 0⟩ := by
  obtain ⟨e0, he0, _⟩ := Init_spec center sea junk h0 h1
  obtain ⟨hv, hs, _, _, hzero⟩ := Init_valid center sea junk e0 h0 h1 he0
  obtain ⟨e, he, _, _, hco⟩ := AccumulateSeq_monopole sea hpow calls e0 hv hs hcalls
  refine ⟨e0, e, he0, he, ?_⟩
  rw [hco, hzero 0 0 0 (Nat.zero_le _) (le_refl _) (le_refl _), zero_add]

/-- C10 at two calls with the weights 2 and 5, on a table allocated over memory that held
`7 + 7i` everywhere: the coefficient `(0, 0, 0)` ends at 7. -/
theorem AccumulateSeq_order_zero_coefficient_witness :
    ∃ e0 e, Init (Sample.pt 1 1 1) (Sample.aux 1 Sample.constants) (fun _ _ _ => ⟨7, 7⟩)
        = some e0 ∧
      AccumulateSeq e0 [(Sample.pt 1 2 3, 2, 1), (Sample.pt 0 0 1, 5, 0)] = some e ∧
      e.coefficient 0 0 0 = ⟨7, 0⟩ := by
  obtain ⟨e0, e, he0, he, hco⟩ := AccumulateSeq_order_zero_coefficient (Sample.pt 1 1 1)
    (Sample.aux 1 Sample.constants) (fun _ _ _ => ⟨7, 7⟩)
    [(Sample.pt 1 2 3, 2, 1), (Sample.pt 0 0 1, 5, 0)] (by decide) (by decide)
    (fun z => pow_zero z)
    (fun c hc => by
      simp only [List.mem_cons, List.mem_singleton, List.not_mem_nil, or_false] at hc
      rcases hc with rfl | rfl
      · exact ⟨by decide, by decide⟩
      · exact ⟨by decide, by decide⟩)
  refine ⟨e0, e, he0, he, ?_⟩
  rw [hco]
  ext
  · show ((2 : ℚ) + (5 + 0)) = 7
    norm_num
  · rfl

/-! ### Translation to a local expansion -/

theorem TranslateToLocalLoop_adds (e : InversePowDistFarFieldExpansion R) (p N M : Nat)
    (hpN : p ≤ N) (hpM : p ≤ M) (hS : p < SIZE_MOD) (hs : e.coeffs_.Shaped N)
    (radius theta phi : R) (gp : GenMatrix R) (t : CoeffTable R) (ht : t.Shaped M) :
    ∃ t2, TranslateToLocalLoop e (p : Int) radius theta phi gp t = some t2 ∧
      Adds t t2 (fun np ap bp =>
        if np ≤ p ∧ ap ≤ np ∧ bp ≤ ap then
          ∑ n in Finset.Ico 0 (p + 1), ∑ a in Finset.Ico 0 (n + 1), ∑ b in Finset.Ico 0 (a + 1),
            localTerm e radius theta phi gp np ap bp n a b
        else 0) := by
  unfold TranslateToLocalLoop
  rw [toSizeT_natCast p hS]
  dsimp only
  refine forLoop_adds_eq t.shape _
    (fun np0 np ap bp => ∑ ap0 in Finset.Ico 0 (np0 + 1), ∑ bp0 in Finset.Ico 0 (ap0 + 1),
      single np0 ap0 bp0
        (∑ n in Finset.Ico 0 (p + 1), ∑ a in Finset.Ico 0 (n + 1), ∑ b in Finset.Ico 0 (a + 1),
          localTerm e radius theta phi gp np0 ap0 bp0 n a b) np ap bp) 0 p t _ rfl
    (fun np ap bp => sum_single_triangle p _ np ap bp) ?_
  intro np0 _ hnp0 u hu
  have hsu : u.Shaped M := shaped_of_shape_eq hu ht
  simp only [at_of_shaped hsu (le_trans hnp0 hpM), Option.bind_eq_bind, Option.some_bind]
  refine forLoop_adds t.shape _
    (fun ap0 np ap bp => ∑ bp0 in Finset.Ico 0 (ap0 + 1),
      single np0 ap0 bp0
        (∑ n in Finset.Ico 0 (p + 1), ∑ a in Finset.Ico 0 (n + 1), ∑ b in Finset.Ico 0 (a + 1),
          localTerm e radius theta phi gp np0 ap0 bp0 n a b) np ap bp) 0 np0 u hu ?_
  intro ap0 _ hap0 u1 hu1
  refine forLoop_adds t.shape _
    (fun bp0 => single np0 ap0 bp0
        (∑ n in Finset.Ico 0 (p + 1), ∑ a in Finset.Ico 0 (n + 1), ∑ b in Finset.Ico 0 (a + 1),
          localTerm e radius theta phi gp np0 ap0 bp0 n a b)) 0 ap0 u1 hu1 ?_
  intro bp0 _ hbp0 u2 hu2
  refine forLoop_addsAt t.shape _ np0 ap0 bp0
    (fun n => ∑ a in Finset.Ico 0 (n + 1), ∑ b in Finset.Ico 0 (a + 1),
          localTerm e radius theta phi gp np0 ap0 bp0 n a b) 0 p u2 hu2 ?_
  intro n _ hn u3 hu3
  simp only [at_of_shaped hs (le_trans hn hpN), Option.bind_eq_bind, Option.some_bind]
  refine forLoop_addsAt t.shape _ np0 ap0 bp0
    (fun a => ∑ b in Finset.Ico 0 (a + 1),
          localTerm e radius theta phi gp np0 ap0 bp0 n a b) 0 n u3 hu3 ?_
  intro a _ ha u4 hu4
  refine forLoop_addsAt t.shape _ np0 ap0 bp0
    (fun b => localTerm e radius theta phi gp np0 ap0 bp0 n a b) 0 a u4 hu4 ?_
  intro b _ hb u5 hu5
  have hs5 : u5.Shaped M := shaped_of_shape_eq hu5 ht
  have hd := hs5.2 np0 (le_trans hnp0 hpM)
  simp only [get_of_shaped hs (le_trans hn hpN) ha (le_trans hb ha), Option.bind_eq_bind,
    Option.some_bind]
  exact addAt_adds u5 np0 ap0 bp0 _ (by rw [hs5.1]; omega) (by rw [hd.1]; omega)
    (by rw [hd.2]; omega)

/-- C9. For a valid far-field expansion of order at least 0, a target whose table is allocated
up to an order `M ≥ p`, and `0 ≤ p ≤ MaxOrder`, `TranslateToLocal(target, p)` returns, leaves the
far-field expansion as it is, adds to every target entry `(n', a', b')` with
`b' ≤ a' ≤ n' ≤ p` exactly `M_n'(a', b')` times the sum over `b ≤ a ≤ n ≤ p` of
`coeff(n, a, b) * M_n(a, b) * PartialDerivativeFactor(n + n', a + a', b + b', radius, theta, phi)`,
leaves every other target entry and the center of the target unchanged, and sets the order of the
target to `max(target order, p)`. Here `(radius, theta, phi)` is what the function obtains from
`ConvertCartesianToSpherical` and passes on, with the Gegenbauer table it has built. -/
theorem TranslateToLocal_adds (e : InversePowDistFarFieldExpansion R)
    (se : InversePowDistLocalExpansion R) (p : Int) (M : Nat) (radius theta phi : R)
    (hvalid : e.Valid) (hord : 0 ≤ e.order_) (hse : se.coeffs_.Shaped M) (h0 : 0 ≤ p)
    (h1 : p ≤ e.sea_.max_order) (hpM : p ≤ (M : Int))
    (hsph : e.sea_.ConvertCartesianToSpherical (-(se.center_ 0 - e.center_ 0))
      (-(se.center_ 1 - e.center_ 1)) (-(se.center_ 2 - e.center_ 2)) = (radius, theta, phi)) :
    ∃ se2, TranslateToLocal e se p = some (e, se2) ∧ se2.center_ = se.center_ ∧
      se2.order_ = max se.order_ p ∧ se2.coeffs_.shape = se.coeffs_.shape ∧
      (∀ np ap bp : Nat, bp ≤ ap → ap ≤ np → (np : Int) ≤ p →
        se2.coeffs_.coeff np ap bp = se.coeffs_.coeff np ap bp +
          StdComplex.rmul (e.sea_.multiplicative_constants np ap bp)
            (∑ n in Finset.range (p.toNat + 1), ∑ a in Finset.range (n + 1),
              ∑ b in Finset.range (a + 1),
                (e.coefficient n a b).mulR (e.sea_.multiplicative_constants n a b) *
                  e.sea_.ComputePartialDerivativeFactor (n + np) (a + ap) (b + bp) radius theta
                    phi (e.sea_.GegenbauerPolynomials (e.sea_.cos theta)
                      (toSizeT (2 * (p + 1))) (toSizeT (2 * (p + 1)))))) ∧
      (∀ np ap bp : Nat, ¬ (bp ≤ ap ∧ ap ≤ np ∧ (np : Int) ≤ p) →
        se2.coeffs_.coeff np ap bp = se.coeffs_.coeff np ap bp) := by
  obtain ⟨q, rfl⟩ := Int.eq_ofNat_of_zero_le h0
  have hmax := hvalid.max_le
  have hqN : q ≤ e.sea_.max_order.toNat := by omega
  have hqM : q ≤ M := by omega
  have hqS : q < SIZE_MOD := by
    unfold INT_MAX at hmax
    unfold SIZE_MOD
    omega
  obtain ⟨t2, ht2, hA⟩ := TranslateToLocalLoop_adds e q _ M hqN hqM hqS hvalid.shaped radius
    theta phi (e.sea_.GegenbauerPolynomials (e.sea_.cos theta)
      (toSizeT (2 * ((q : Int) + 1))) (toSizeT (2 * ((q : Int) + 1)))) se.coeffs_ hse
  refine ⟨{ se with coeffs_ := t2, order_ := max se.order_ (q : Int) }, ?_, rfl, rfl, hA.1,
    ?_, ?_⟩
  · unfold TranslateToLocal
    rw [if_neg (by omega)]
    dsimp only
    rw [hsph]
    dsimp only
    rw [ht2]
    rfl
  · intro np ap bp hb ha hn
    have hc := hA.2 np ap bp
    beta_reduce at hc
    rw [if_pos ⟨by omega, ha, hb⟩] at hc
    rw [hc, Int.toNat_ofNat]
    congr 1
    simp only [StdComplex.rmul_sum, Finset.range_eq_Ico]
    refine Finset.sum_congr rfl (fun n _ => Finset.sum_congr rfl (fun a _ =>
      Finset.sum_congr rfl (fun b _ => ?_)))
    exact StdComplex.rmul_mulR_mul _ _ _ _
  · intro np ap bp hnot
    have hc := hA.2 np ap bp
    beta_reduce at hc
    rw [if_neg (fun h => hnot ⟨h.2.2, h.2.1, by omega⟩), add_zero] at hc
    exact hc

/-! ### The general branch of `TranslateFromFarField` -/

theorem TranslateFromFarFieldLoop_adds (sea : InversePowDistSeriesExpansionAux R)
    (se : InversePowDistFarFieldExpansion R) (x y z : R) (p N : Nat) (hp : p ≤ N)
    (hS : p < SIZE_MOD) (hord : se.order_ = (p : Int)) (hse : se.coeffs_.Shaped N)
    (t : CoeffTable R) (ht : t.Shaped N) :
    ∃ t2, TranslateFromFarFieldLoop sea se x y z t = some t2 ∧
      Adds t t2 (fun np ap bp =>
        if np ≤ p ∧ ap ≤ np ∧ bp ≤ ap then generalSum sea se x y z np ap bp else 0) := by
  unfold TranslateFromFarFieldLoop
  rw [hord, toSizeT_natCast p hS]
  dsimp only
  refine forLoop_adds_eq t.shape _
    (fun np0 np ap bp => ∑ ap0 in Finset.Ico 0 (np0 + 1), ∑ bp0 in Finset.Ico 0 (ap0 + 1),
      single np0 ap0 bp0 (generalSum sea se x y z np0 ap0 bp0) np ap bp) 0 p t _ rfl
    (fun np ap bp => sum_single_triangle p _ np ap bp) ?_
  intro np0 _ hnp0 u hu
  have hsu : u.Shaped N := shaped_of_shape_eq hu ht
  simp only [at_of_shaped hsu (le_trans hnp0 hp), Option.bind_eq_bind, Option.some_bind]
  refine forLoop_adds t.shape _
    (fun ap0 np ap bp => ∑ bp0 in Finset.Ico 0 (ap0 + 1),
      single np0 ap0 bp0 (generalSum sea se x y z np0 ap0 bp0) np ap bp) 0 np0 u hu ?_
  intro ap0 _ hap0 u1 hu1
  refine forLoop_adds t.shape _
    (fun bp0 => single np0 ap0 bp0 (generalSum sea se x y z np0 ap0 bp0)) 0 ap0 u1 hu1 ?_
  intro bp0 _ hbp0 u2 hu2
  unfold generalSum
  refine forLoop_addsAt t.shape _ np0 ap0 bp0
    (fun n => ∑ a in Finset.Ico (max 0 (sizeSub (sizeAdd ap0 n) np0)) (min n ap0 + 1),
      ∑ b in Finset.Ico (max 0 (sizeSub (sizeAdd bp0 a) ap0)) (min a bp0 + 1),
        generalTerm sea se x y z np0 ap0 bp0 n a b) 0 np0 u2 hu2 ?_
  intro n _ hn u3 hu3
  have hnN : n ≤ N := le_trans hn (le_trans hnp0 hp)
  simp only [at_of_shaped hse hnN, Option.bind_eq_bind, Option.some_bind]
  refine forLoop_addsAt t.shape _ np0 ap0 bp0
    (fun a => ∑ b in Finset.Ico (max 0 (sizeSub (sizeAdd bp0 a) ap0)) (min a bp0 + 1),
        generalTerm sea se x y z np0 ap0 bp0 n a b) _ _ u3 hu3 ?_
  intro a _ ha u4 hu4
  refine forLoop_addsAt t.shape _ np0 ap0 bp0
    (fun b => generalTerm sea se x y z np0 ap0 bp0 n a b) _ _ u4 hu4 ?_
  intro b _ hb u5 hu5
  have hs5 : u5.Shaped N := shaped_of_shape_eq hu5 ht
  have hd := hs5.2 np0 (le_trans hnp0 hp)
  have han : a ≤ n := le_trans ha (min_le_left _ _)
  have hba : b ≤ a := le_trans hb (min_le_left _ _)
  simp only [get_of_shaped hse hnN han (le_trans hba han), Option.bind_eq_bind,
    Option.some_bind]
  exact addAt_adds u5 np0 ap0 bp0 _ (by rw [hs5.1]; omega) (by rw [hd.1]; omega)
    (by rw [hd.2]; omega)

/-- Effect of the general branch of `TranslateFromFarField` on valid states that share the
shape of their tables. -/
theorem TranslateFromFarFieldGeneral_effect (e se : InversePowDistFarFieldExpansion R)
    (x y z : R) (hvalid : e.Valid) (hse : se.coeffs_.Shaped e.sea_.max_order.toNat)
    (h0 : 0 ≤ se.order_) (h1 : se.order_ ≤ e.sea_.max_order) :
    ∃ e2, TranslateFromFarFieldGeneral e se x y z = some e2 ∧ e2.Valid ∧ e2.sea_ = e.sea_ ∧
      e2.center_ = e.center_ ∧ e2.order_ = max e.order_ se.order_ ∧
      e2.coeffs_.shape = e.coeffs_.shape ∧
      ∀ np ap bp : Nat, e2.coefficient np ap bp = e.coefficient np ap bp +
        if bp ≤ ap ∧ ap ≤ np ∧ (np : Int) ≤ se.order_ then
          generalSum e.sea_ se x y z np ap bp
        else 0 := by
  obtain ⟨p, hp⟩ := Int.eq_ofNat_of_zero_le h0
  have hmax := hvalid.max_le
  have hpN : p ≤ e.sea_.max_order.toNat := by omega
  have hpS : p < SIZE_MOD := by
    unfold INT_MAX at hmax
    unfold SIZE_MOD
    omega
  obtain ⟨t2, ht2, hA⟩ := TranslateFromFarFieldLoop_adds e.sea_ se x y z p _ hpN hpS hp
    hse e.coeffs_ hvalid.shaped
  refine ⟨{ e with coeffs_ := t2, order_ := max e.order_ se.order_ }, ?_, ?_, rfl, rfl, rfl,
    hA.1, fun np ap bp => ?_⟩
  · simp [TranslateFromFarFieldGeneral, ht2]
  · exact ⟨hvalid.max_nonneg, hvalid.max_le, shaped_of_shape_eq hA.1 hvalid.shaped,
      max_le hvalid.order_le h1⟩
  · have hc := hA.2 np ap bp
    beta_reduce at hc
    by_cases h : np ≤ p ∧ ap ≤ np ∧ bp ≤ ap
    · rw [if_pos h] at hc
      rw [if_pos ⟨h.2.2, h.2.1, by omega⟩]
      exact hc
    · rw [if_neg h] at hc
      rw [if_neg (fun h2 => h ⟨by omega, h2.2.1, h2.1⟩)]
      exact hc

/-! ### The general branch at the zero offset -/

theorem exponents_zero_iff (np ap bp n a b : Nat) (hnp : np < 2147483648) (hap : ap ≤ np)
    (hbp : bp ≤ ap) (hn : n ≤ np) (ha : a ≤ min n ap) (hb : b ≤ min a bp) :
    (sizeAdd (sizeSub (sizeSub np n) ap) a = 0 ∧ sizeSub bp b = 0 ∧
      sizeAdd (sizeSub (sizeSub ap a) bp) b = 0) ↔ (np = n ∧ ap = a ∧ bp = b) := by
  unfold sizeAdd sizeSub SIZE_MOD at *
  omega

theorem sizeSub_self (x : Nat) : sizeSub x x = 0 := by
  unfold sizeSub SIZE_MOD
  omega

theorem generalTerm_zero_offset (sea : InversePowDistSeriesExpansionAux R)
    (se : InversePowDistFarFieldExpansion R) (np ap bp n a b : Nat)
    (hrho : (sea.ConvertToComplexForm 0 0).1 = 0) (hpow : ∀ z, sea.PowWithRootOfUnity z 0 = 1)
    (hM : sea.multiplicative_constants np ap bp ≠ 0) (hnp : np < 2147483648)
    (hap : ap ≤ np) (hbp : bp ≤ ap) (hn : n ≤ np) (ha : a ≤ min n ap) (hb : b ≤ min a bp) :
    generalTerm sea se 0 0 0 np ap bp n a b =
      single n a b ((se.coeffs_.coeff np ap bp).mulR (sea.multiplicative_constants 0 0 0))
        np ap bp := by
  have hiff := exponents_zero_iff np ap bp n a b hnp hap hbp hn ha hb
  unfold generalTerm single
  rw [hrho]
  by_cases h : np = n ∧ ap = a ∧ bp = b
  · obtain ⟨h1, h2, h3⟩ := h
    subst h1 h2 h3
    obtain ⟨e1, e2, e3⟩ := hiff.mpr ⟨rfl, rfl, rfl⟩
    rw [e1, e3]
    simp only [sizeSub_self, if_true, hpow, pow_zero]
    ext
    · simp
      field_simp
      ring
    · simp
      field_simp
      ring
  · have hne : ¬ (sizeAdd (sizeSub (sizeSub np n) ap) a = 0 ∧ sizeSub bp b = 0 ∧
        sizeAdd (sizeSub (sizeSub ap a) bp) b = 0) := fun hc => h (hiff.mp hc)
    have hval : (if np = n then (if ap = a then (if bp = b then
        (se.coeffs_.coeff np ap bp).mulR (sea.multiplicative_constants 0 0 0) else 0) else 0)
        else 0) = (0 : StdComplex R) := by
      split_ifs with h1 h2 h3
      · exact absurd ⟨h1, h2, h3⟩ h
      · rfl
      · rfl
      · rfl
    rw [hval]
    by_cases h1 : sizeAdd (sizeSub (sizeSub np n) ap) a = 0
    · by_cases h2 : sizeSub bp b = 0
      · have h3 : sizeAdd (sizeSub (sizeSub ap a) bp) b ≠ 0 := fun hc => hne ⟨h1, h2, hc⟩
        rw [zero_pow h3]
        ext <;> simp
      · rw [zero_pow h2]
        ext <;> simp
    · rw [zero_pow h1]
      ext <;> simp

theorem sum_single_outer (n0 lo hi : Nat) (g : Nat → StdComplex R) (n a : Nat) :
    (∑ a0 in Finset.Ico lo hi,
        if n = n0 then (if a = a0 then g a0 else 0) else (0 : StdComplex R)) =
      if n = n0 then (if lo ≤ a ∧ a < hi then g a else 0) else 0 := by
  by_cases h1 : n = n0
  · simp only [h1, if_true]
    exact sum_pick lo hi a g
  · simp [h1]

theorem generalSum_zero_offset (sea : InversePowDistSeriesExpansionAux R)
    (se : InversePowDistFarFieldExpansion R) (np ap bp : Nat)
    (hrho : (sea.ConvertToComplexForm 0 0).1 = 0) (hpow : ∀ z, sea.PowWithRootOfUnity z 0 = 1)
    (hM : sea.multiplicative_constants np ap bp ≠ 0) (hnp : np < 2147483648)
    (hap : ap ≤ np) (hbp : bp ≤ ap) :
    generalSum sea se 0 0 0 np ap bp =
      (se.coeffs_.coeff np ap bp).mulR (sea.multiplicative_constants 0 0 0) := by
  unfold generalSum
  have hterm : ∀ n ∈ Finset.Ico 0 (np + 1),
      ∀ a ∈ Finset.Ico (max 0 (sizeSub (sizeAdd ap n) np)) (min n ap + 1),
      ∀ b ∈ Finset.Ico (max 0 (sizeSub (sizeAdd bp a) ap)) (min a bp + 1),
      generalTerm sea se 0 0 0 np ap bp n a b =
        single n a b ((se.coeffs_.coeff np ap bp).mulR (sea.multiplicative_constants 0 0 0))
          np ap bp := by
    intro n hn a ha b hb
    rw [Finset.mem_Ico] at hn ha hb
    exact generalTerm_zero_offset sea se np ap bp n a b hrho hpow hM hnp hap hbp (by omega)
      (by omega) (by omega)
  rw [Finset.sum_congr rfl (fun n hn => Finset.sum_congr rfl (fun a ha =>
    Finset.sum_congr rfl (fun b hb => hterm n hn a ha b hb)))]
  simp only [sum_single_inner]
  rw [Finset.sum_congr rfl (fun n _ => sum_single_outer n
    (max 0 (sizeSub (sizeAdd ap n) np)) (min n ap + 1)
    (fun a => if max 0 (sizeSub (sizeAdd bp a) ap) ≤ bp ∧ bp < min a bp + 1 then
      (se.coeffs_.coeff np ap bp).mulR (sea.multiplicative_constants 0 0 0) else 0) np ap),
    sum_pick]
  have h1 : (0 : Nat) ≤ np ∧ np < np + 1 := ⟨Nat.zero_le _, Nat.lt_succ_self _⟩
  have h2 : max 0 (sizeSub (sizeAdd ap np) np) ≤ ap ∧ ap < min np ap + 1 := by
    unfold sizeAdd sizeSub SIZE_MOD
    omega
  have h3 : max 0 (sizeSub (sizeAdd bp ap) ap) ≤ bp ∧ bp < min ap bp + 1 := by
    unfold sizeAdd sizeSub SIZE_MOD
    omega
  rw [if_pos h1, if_pos h2, if_pos h3]

/-- Effect of the general branch of `TranslateFromFarField` at the offset `(0, 0, 0)`. -/
theorem General_zero_offset_effect (e se : InversePowDistFarFieldExpansion R)
    (hvalid : e.Valid) (hse : se.coeffs_.Shaped e.sea_.max_order.toNat) (h0 : 0 ≤ se.order_)
    (h1 : se.order_ ≤ e.sea_.max_order)
    (hrho : (e.sea_.ConvertToComplexForm 0 0).1 = 0)
    (hpow : ∀ z, e.sea_.PowWithRootOfUnity z 0 = 1)
    (hM : ∀ n a b : Nat, b ≤ a → a ≤ n → (n : Int) ≤ e.sea_.max_order →
      e.sea_.multiplicative_constants n a b ≠ 0) :
    ∃ e2, TranslateFromFarFieldGeneral e se 0 0 0 = some e2 ∧
      ∀ np ap bp : Nat, bp ≤ ap → ap ≤ np → (np : Int) ≤ se.order_ →
        e2.coefficient np ap bp = e.coefficient np ap bp +
          (se.coefficient np ap bp).mulR (e.sea_.multiplicative_constants 0 0 0) := by
  obtain ⟨e2, he2, _, _, _, _, _, hco⟩ := TranslateFromFarFieldGeneral_effect e se 0 0 0 hvalid
    hse h0 h1
  refine ⟨e2, he2, fun np ap bp hb ha hn => ?_⟩
  have hmax := hvalid.max_le
  have hnp : np < 2147483648 := by
    unfold INT_MAX at hmax
    omega
  rw [hco np ap bp, if_pos ⟨hb, ha, hn⟩, generalSum_zero_offset e.sea_ se np ap bp hrho hpow
    (hM np ap bp hb ha (by omega)) hnp ha hb]
  rfl

/-- C7, as stated, fails. The auxiliary object has all multiplicative constants equal to 2,
`ConvertToComplexForm(0, 0)` has `rho = 0` and unit `eta`, `xi`, and the power 0 of a root of
unity is 1. The child holds the coefficient `(0, 0, 0) = 1` and has order 0. The general loop
nest at the offset `(0, 0, 0)` adds 2 to the entry `(0, 0, 0)` of an empty receiver, whereas
element-wise addition adds 1. -/
theorem General_zero_offset_doubles :
    (∀ n a b : Nat, (Sample.aux 0 (fun _ _ _ => 2)).multiplicative_constants n a b ≠ 0) ∧
    ((Sample.aux 0 (fun _ _ _ => 2)).ConvertToComplexForm 0 0).1 = 0 ∧
    (∀ z, (Sample.aux 0 (fun _ _ _ => 2)).PowWithRootOfUnity z 0 = 1) ∧
    ∃ e2, TranslateFromFarFieldGeneral
        (Sample.monopoleWith 0 (Sample.pt 0 0 0) 0 (-1) (fun _ _ _ => 2))
        (Sample.monopoleWith 0 (Sample.pt 0 0 0) 1 0 (fun _ _ _ => 2)) 0 0 0 = some e2 ∧
      e2.coefficient 0 0 0 = ⟨2, 0⟩ ∧
      (Sample.monopoleWith 0 (Sample.pt 0 0 0) 0 (-1) (fun _ _ _ => 2)).coefficient 0 0 0 +
        (Sample.monopoleWith 0 (Sample.pt 0 0 0) 1 0 (fun _ _ _ => 2)).coefficient 0 0 0
        = ⟨1, 0⟩ := by
  have hM : ∀ n a b : Nat, (Sample.aux 0 (fun _ _ _ => 2)).multiplicative_constants n a b ≠ 0 :=
    fun n a b => by
      show (2 : ℚ) ≠ 0
      norm_num
  have hrho : ((Sample.aux 0 (fun _ _ _ => 2)).ConvertToComplexForm 0 0).1 = 0 := by
    simp [Sample.aux]
  have hpow : ∀ z, (Sample.aux 0 (fun _ _ _ => 2)).PowWithRootOfUnity z 0 = 1 :=
    fun z => pow_zero z
  obtain ⟨e2, he2, hco⟩ := General_zero_offset_effect
    (Sample.monopoleWith 0 (Sample.pt 0 0 0) 0 (-1) (fun _ _ _ => 2))
    (Sample.monopoleWith 0 (Sample.pt 0 0 0) 1 0 (fun _ _ _ => 2))
    (Sample_monopoleWith_valid 0 _ 0 (-1) _ (by decide) (by decide))
    (Sample_monopoleWith_valid 0 (Sample.pt 0 0 0) 1 0 (fun _ _ _ => 2) (by decide)
      (by decide)).shaped
    (le_refl _) (le_refl _) hrho hpow (fun n a b _ _ _ => hM n a b)
  refine ⟨hM, hrho, hpow, e2, he2, ?_, ?_⟩
  · rw [hco 0 0 0 (le_refl _) (le_refl _) (le_refl _)]
    ext
    · show (0 : ℚ) + 1 * 2 = 2
      norm_num
    · show (0 : ℚ) + 0 * 2 = 0
      norm_num
  · ext
    · show (0 : ℚ) + 1 = 1
      norm_num
    · show (0 : ℚ) + 0 = 0
      norm_num

/-- C7, amended. For a valid receiver and a valid child of non-negative order with tables of
the same size, and an auxiliary object whose `ConvertToComplexForm(0, 0)` has `rho = 0`, whose
power 0 of a root of unity is 1 and whose multiplicative constants are nonzero, the general loop
nest of `TranslateFromFarField` at the offset `(0, 0, 0)` returns and adds to every entry
`(n', a', b')` with `b' ≤ a' ≤ n' ≤ child.order` the coefficient `(n', a', b')` of the child
multiplied by the constant `M_0(0, 0)`; when `M_0(0, 0) = 1` this is the coefficient of the child
itself, the result of element-wise addition. -/
theorem General_zero_offset_adds (e se : InversePowDistFarFieldExpansion R)
    (hvalid : e.Valid) (hse : se.Valid) (hsize : se.coeffs_.size = e.coeffs_.size)
    (h0 : 0 ≤ se.order_)
    (hrho : (e.sea_.ConvertToComplexForm 0 0).1 = 0)
    (hpow : ∀ z, e.sea_.PowWithRootOfUnity z 0 = 1)
    (hM : ∀ n a b : Nat, b ≤ a → a ≤ n → (n : Int) ≤ e.sea_.max_order →
      e.sea_.multiplicative_constants n a b ≠ 0) :
    ∃ e2, TranslateFromFarFieldGeneral e se 0 0 0 = some e2 ∧
      (∀ np ap bp : Nat, bp ≤ ap → ap ≤ np → (np : Int) ≤ se.order_ →
        e2.coefficient np ap bp = e.coefficient np ap bp +
          (se.coefficient np ap bp).mulR (e.sea_.multiplicative_constants 0 0 0)) ∧
      (e.sea_.multiplicative_constants 0 0 0 = 1 →
        ∀ np ap bp : Nat, bp ≤ ap → ap ≤ np → (np : Int) ≤ se.order_ →
          e2.coefficient np ap bp = e.coefficient np ap bp + se.coefficient np ap bp) := by
  obtain ⟨hsh, h1⟩ := child_shaped e se hvalid hse hsize
  obtain ⟨e2, he2, hco⟩ := General_zero_offset_effect e se hvalid hsh h0 h1 hrho hpow hM
  refine ⟨e2, he2, hco, fun hone np ap bp hb ha hn => ?_⟩
  rw [hco np ap bp hb ha hn, hone]
  congr 1
  ext <;> simp

theorem Sample_constants_ne_zero (n a b : Nat) : Sample.constants n a b ≠ 0 := by
  unfold Sample.constants
  positivity

/-- C7, amended, at the sample constants, for which `M_0(0, 0) = 1`: a receiver with
`(0, 0, 0) = 2` and a child with `(0, 0, 0) = 3` of order 1 give `(0, 0, 0) = 5`. -/
theorem General_zero_offset_adds_witness :
    ∃ e2, TranslateFromFarFieldGeneral (Sample.monopoleAt 1 (Sample.pt 0 0 0) 2 0)
        (Sample.monopoleAt 1 (Sample.pt 0 0 0) 3 1) 0 0 0 = some e2 ∧
      e2.coefficient 0 0 0 = ⟨5, 0⟩ ∧ e2.coefficient 1 0 0 = 0 := by
  obtain ⟨e2, he2, _, hco⟩ := General_zero_offset_adds
    (Sample.monopoleAt 1 (Sample.pt 0 0 0) 2 0) (Sample.monopoleAt 1 (Sample.pt 0 0 0) 3 1)
    (Sample_monopoleAt_valid 1 _ 2 0 (by decide) (by decide))
    (Sample_monopoleAt_valid 1 _ 3 1 (by decide) (by decide)) rfl (by decide)
    (by simp [Sample.monopoleAt, Sample.monopoleWith, Sample.aux]) (fun z => pow_zero z)
    (fun n a b _ _ _ => Sample_constants_ne_zero n a b)
  have hone : (Sample.monopoleAt 1 (Sample.pt 0 0 0) 2 0).sea_.multiplicative_constants 0 0 0
      = 1 := by
    show Sample.constants 0 0 0 = 1
    simp [Sample.constants]
  refine ⟨e2, he2, ?_, ?_⟩
  · rw [hco hone 0 0 0 (le_refl _) (le_refl _) (by decide)]
    ext
    · show (2 : ℚ) + 3 = 5
      norm_num
    · show (0 : ℚ) + 0 = 0
      norm_num
  · rw [hco hone 1 0 0 (le_refl _) (by decide) (by decide)]
    ext
    · show (0 : ℚ) + 0 = 0
      norm_num
    · show (0 : ℚ) + 0 = 0
      norm_num

/-! ### Terms that the general branch leaves out -/

/-- C9 at a far-field expansion with the single coefficient `(0, 0, 0) = 2`, an empty target
and truncation order 1, for an auxiliary object whose partial-derivative factor is 1. -/
theorem TranslateToLocal_adds_witness :
    ∃ se2, TranslateToLocal (Sample.monopoleAt 1 (Sample.pt 0 0 0) 2 0)
        (Sample.emptyLocalAt 1 (Sample.pt 0 0 3)) 1 =
          some (Sample.monopoleAt 1 (Sample.pt 0 0 0) 2 0, se2) ∧
      se2.order_ = 1 ∧ se2.coeffs_.coeff 0 0 0 = ⟨2, 0⟩ ∧ se2.coeffs_.coeff 1 1 0 = ⟨2, 0⟩ := by
  obtain ⟨se2, hse2, _, hord, _, hin, _⟩ := TranslateToLocal_adds
    (Sample.monopoleAt 1 (Sample.pt 0 0 0) 2 0) (Sample.emptyLocalAt 1 (Sample.pt 0 0 3)) 1 1
    _ _ _ (Sample_monopoleAt_valid 1 _ 2 0 (by decide) (by decide)) (le_refl _)
    ⟨rfl, fun n _ => ⟨rfl, rfl⟩⟩ (by decide) (by decide) (by decide) rfl
  refine ⟨se2, hse2, ?_, ?_, ?_⟩
  · rw [hord]
    decide
  · rw [hin 0 0 0 (le_refl _) (le_refl _) (by decide)]
    have ht : (1 : Int).toNat + 1 = 2 := by decide
    rw [ht]
    ext <;> simp [Finset.sum_range_succ, Sample.monopoleAt, Sample.monopoleWith, Sample.aux,
      Sample.emptyLocalAt, Sample.zeroTable, Sample.constants, coefficient, CoeffTable.coeff]
  · rw [hin 1 1 0 (by decide) (le_refl _) (by decide)]
    have ht : (1 : Int).toNat + 1 = 2 := by decide
    rw [ht]
    ext <;> simp [Finset.sum_range_succ, Sample.monopoleAt, Sample.monopoleWith, Sample.aux,
      Sample.emptyLocalAt, Sample.zeroTable, Sample.constants, coefficient, CoeffTable.coeff]

/-! ### The sample auxiliary object meets the contract of the far-to-far translation -/

/-- For the sample auxiliary object, `eta^k rho^k` is the `k`-th power of `x + i y` and
`xi^k rho^k` is the `k`-th power of `x - i y`; both quantities are additive in `(x, y)`. -/
theorem Sample_aux_powers (N : Int) (m : Nat → Nat → Nat → ℚ) (x y : ℚ) (k : Nat) :
    ((Sample.aux N m).PowWithRootOfUnity ((Sample.aux N m).ConvertToComplexForm x y).2.1 k).mulR
        (((Sample.aux N m).ConvertToComplexForm x y).1 ^ k) = (⟨x, y⟩ : StdComplex ℚ) ^ k ∧
    ((Sample.aux N m).PowWithRootOfUnity ((Sample.aux N m).ConvertToComplexForm x y).2.2 k).mulR
        (((Sample.aux N m).ConvertToComplexForm x y).1 ^ k) = (⟨x, -y⟩ : StdComplex ℚ) ^ k := by
  by_cases h : x = 0 ∧ y = 0
  · obtain ⟨hx, hy⟩ := h
    subst hx hy
    have hz : (⟨0, 0⟩ : StdComplex ℚ) = 0 := rfl
    have hz2 : (⟨0, -0⟩ : StdComplex ℚ) = 0 := by ext <;> simp
    rw [hz, hz2]
    by_cases hk : k = 0
    · subst hk
      constructor <;> ext <;> simp [Sample.aux]
    · rw [zero_pow hk]
      constructor <;> ext <;> simp [Sample.aux, hk]
  · constructor <;> ext <;> simp [Sample.aux, h]

/-- The sample constants have the ratio of the addition theorem:
`M_n(a, b) M_(n'-n)(a'-a, b'-b) / M_n'(a', b')` is the product of three binomial coefficients. -/
theorem Sample_constants_ratio (np ap bp n a b : Nat) (hb : b ≤ a) (ha : a ≤ n)
    (hbp : bp ≤ ap) (h1 : n - a ≤ np - ap) (h2 : b ≤ bp)
    (h3 : a - b ≤ ap - bp) :
    Sample.constants n a b * Sample.constants (np - n) (ap - a) (bp - b) /
        Sample.constants np ap bp =
      ((np - ap).choose (n - a) : ℚ) * (bp.choose b : ℚ) * ((ap - bp).choose (a - b) : ℚ) := by
  unfold Sample.constants
  rw [Nat.cast_choose ℚ h1, Nat.cast_choose ℚ h2, Nat.cast_choose ℚ h3]
  have e1 : np - n - (ap - a) = np - ap - (n - a) := by omega
  have e2 : ap - a - (bp - b) = ap - bp - (a - b) := by omega
  rw [e1, e2]
  have f1 := Nat.factorial_pos (n - a)
  have f2 := Nat.factorial_pos b
  have f3 := Nat.factorial_pos (a - b)
  have f4 := Nat.factorial_pos (np - ap - (n - a))
  have f5 := Nat.factorial_pos (bp - b)
  have f6 := Nat.factorial_pos (ap - bp - (a - b))
  have f7 := Nat.factorial_pos (np - ap)
  have f8 := Nat.factorial_pos bp
  have f9 := Nat.factorial_pos (ap - bp)
  field_simp
  ring

/-! ### Calls that change nothing, the order after `Accumulate`, the state after `Init` -/

/-- C12. When the order of the child is negative, `TranslateFromFarField(child)` returns the
receiver as it is: center, order, auxiliary object and every coefficient are unchanged,
whatever the center and the table of the child are. -/
theorem TranslateFromFarField_empty_child (e se : InversePowDistFarFieldExpansion R)
    (h : se.order_ < 0) : TranslateFromFarField e se = some e := by
  unfold TranslateFromFarField
  rw [if_pos h]

/-- C12 at a receiver that holds `(0, 0, 0) = 2` and an empty child around another center. -/
theorem TranslateFromFarField_empty_child_witness :
    TranslateFromFarField (Sample.monopoleAt 1 (Sample.pt 0 0 0) 2 0)
        (Sample.emptyAt 1 (Sample.pt 0 0 5)) =
      some (Sample.monopoleAt 1 (Sample.pt 0 0 0) 2 0) :=
  TranslateFromFarField_empty_child (Sample.monopoleAt 1 (Sample.pt 0 0 0) 2 0)
    (Sample.emptyAt 1 (Sample.pt 0 0 5)) (by decide)

/-- C13. When the order of the far-field expansion is negative,
`TranslateToLocal(target, truncation_order)` returns the far-field expansion and the target as
they are: the coefficients of the target and its order are unchanged, so the order is not
raised to `truncation_order`. -/
theorem TranslateToLocal_empty_source (e : InversePowDistFarFieldExpansion R)
    (se : InversePowDistLocalExpansion R) (truncation_order : Int) (h : e.order_ < 0) :
    TranslateToLocal e se truncation_order = some (e, se) := by
  unfold TranslateToLocal
  rw [if_pos h]

/-- C13 at an empty far-field expansion, an empty target and truncation order 1. -/
theorem TranslateToLocal_empty_source_witness :
    TranslateToLocal (Sample.emptyAt 1 (Sample.pt 0 0 0)) (Sample.emptyLocalAt 1 (Sample.pt 0 0 3))
        1 =
      some (Sample.emptyAt 1 (Sample.pt 0 0 0), Sample.emptyLocalAt 1 (Sample.pt 0 0 3)) :=
  TranslateToLocal_empty_source (Sample.emptyAt 1 (Sample.pt 0 0 0))
    (Sample.emptyLocalAt 1 (Sample.pt 0 0 3)) 1 (by decide)

/-- C14. For a center and an auxiliary object whose maximum order is a non-negative `int`,
`Init(center, sea)` returns an expansion with that center and that auxiliary object, with order
-1, and with a table of exactly `MaxOrder + 1` matrices, the matrix of order `n` being `(n + 1)`
by `(n + 1)` with every entry equal to `0 + 0i`, whatever the allocated memory held before. -/
theorem Init_allocates_zero_table (center : Fin 3 → R)
    (sea : InversePowDistSeriesExpansionAux R) (junk : Nat → Nat → Nat → StdComplex R)
    (h0 : 0 ≤ sea.max_order) (h1 : sea.max_order ≤ INT_MAX) :
    ∃ e, Init center sea junk = some e ∧ e.center_ = center ∧ e.order_ = -1 ∧ e.sea_ = sea ∧
      e.coeffs_.size = sea.max_order.toNat + 1 ∧
      ∀ n, n ≤ sea.max_order.toNat →
        (e.coeffs_.elem n).n_rows = n + 1 ∧ (e.coeffs_.elem n).n_cols = n + 1 ∧
        ∀ a b, a ≤ n → b ≤ n → (e.coeffs_.elem n).get a b = some 0 := by
  obtain ⟨e, he, hcen, hord, hsea, hcl⟩ := Init_spec center sea junk h0 h1
  refine ⟨e, he, hcen, hord, hsea, hcl.1, fun n hn => ?_⟩
  obtain ⟨hr, hc, hz⟩ := hcl.2 n (by omega)
  refine ⟨hr, hc, fun a b ha hb => ?_⟩
  rw [get_of_lt _ (by rw [hr]; omega) (by rw [hc]; omega), hz a b ha hb]

/-- C14 at maximum order 1, over memory that held `7 + 7i` everywhere. -/
theorem Init_allocates_zero_table_witness :
    ∃ e, Init (Sample.pt 1 2 3) (Sample.aux 1 Sample.constants) (fun _ _ _ => ⟨7, 7⟩) = some e ∧
      e.order_ = -1 ∧ e.coeffs_.size = 2 ∧ (e.coeffs_.elem 1).n_rows = 2 ∧
      (e.coeffs_.elem 1).get 1 0 = some 0 := by
  obtain ⟨e, he, _, hord, _, hsize, hmat⟩ := Init_allocates_zero_table (Sample.pt 1 2 3)
    (Sample.aux 1 Sample.constants) (fun _ _ _ => ⟨7, 7⟩) (by decide) (by decide)
  exact ⟨e, he, hord, hsize, (hmat 1 (by decide)).1,
    (hmat 1 (by decide)).2.2 1 0 (by decide) (by decide)⟩

/-- C16. On a valid state and for `0 ≤ order ≤ MaxOrder`, `Accumulate(v, weight, order)` returns
and leaves the order of the expansion at `max(previous order, order)`; in particular the order
does not decrease. -/
theorem Accumulate_order_max (e : InversePowDistFarFieldExpansion R) (v : Fin 3 → R)
    (weight : R) (order : Int) (hvalid : e.Valid) (h0 : 0 ≤ order)
    (h1 : order ≤ e.sea_.max_order) :
    ∃ e2, Accumulate e v weight order = some e2 ∧ e2.order_ = max e.order_ order ∧
      e.order_ ≤ e2.order_ := by
  obtain ⟨e2, he2, _, _, _, hord, _⟩ := Accumulate_effect e v weight order hvalid h0 h1
  exact ⟨e2, he2, hord, by rw [hord]; exact le_max_left _ _⟩

/-- C16 at an expansion of order 2 and a call with order 1: the order stays 2. -/
theorem Accumulate_order_max_witness :
    ∃ e2, Accumulate (Sample.monopoleAt 2 (Sample.pt 0 0 0) 1 2) (Sample.pt 1 2 3) 5 1 = some e2 ∧
      e2.order_ = 2 := by
  obtain ⟨e2, he2, hord, _⟩ := Accumulate_order_max (Sample.monopoleAt 2 (Sample.pt 0 0 0) 1 2)
    (Sample.pt 1 2 3) 5 1 (Sample_monopoleAt_valid 2 _ 1 2 (by decide) (by decide)) (by decide)
    (by decide)
  refine ⟨e2, he2, ?_⟩
  rw [hord]
  decide

/-! ### The value of `EvaluateField` -/

theorem accumulateTerm_at_center (sea : InversePowDistSeriesExpansionAux R)
    (hrho : (sea.ConvertToComplexForm 0 0).1 = 0) (hpow : ∀ z, sea.PowWithRootOfUnity z 0 = 1)
    (w : R) (n a b : Nat) (hb : b ≤ a) (ha : a ≤ n) :
    accumulateTerm sea 0 0 0 w n a b = if n = 0 then ⟨w, 0⟩ else 0 := by
  unfold accumulateTerm
  rw [hrho]
  by_cases hn : n = 0
  · have ha0 : a = 0 := by omega
    have hb0 : b = 0 := by omega
    subst hn ha0 hb0
    rw [if_pos rfl]
    ext <;> simp [hpow]
  · rw [if_neg hn]
    by_cases h1 : n - a = 0
    · by_cases h2 : b = 0
      · have h3 : a - b ≠ 0 := by omega
        rw [zero_pow h3]
        ext <;> simp
      · rw [zero_pow h2]
        ext <;> simp
    · rw [zero_pow h1]
      ext <;> simp

/-- Effect of `Accumulate` for a point at the center of a valid state. -/
theorem Accumulate_center_effect (e : InversePowDistFarFieldExpansion R) (w : R) (p : Int)
    (hvalid : e.Valid) (hp0 : 0 ≤ p) (hp1 : p ≤ e.sea_.max_order)
    (hrho : (e.sea_.ConvertToComplexForm 0 0).1 = 0)
    (hpow : ∀ z, e.sea_.PowWithRootOfUnity z 0 = 1) :
    ∃ e2, Accumulate e e.center_ w p = some e2 ∧ e2.Valid ∧ e2.sea_ = e.sea_ ∧
      e2.center_ = e.center_ ∧ e2.order_ = max e.order_ p ∧
      e2.coefficient 0 0 0 = e.coefficient 0 0 0 + ⟨w, 0⟩ ∧
      ∀ n a b : Nat, 1 ≤ n → e2.coefficient n a b = e.coefficient n a b := by
  obtain ⟨e2, he2, hv2, hs2, hc2, ho2, _, hco⟩ := Accumulate_effect e e.center_ w p hvalid hp0 hp1
  refine ⟨e2, he2, hv2, hs2, hc2, ho2, ?_, ?_⟩
  · rw [hco 0 0 0, if_pos ⟨le_refl _, le_refl _, hp0⟩, sub_self, sub_self, sub_self,
      accumulateTerm_at_center e.sea_ hrho hpow w 0 0 0 (le_refl _) (le_refl _), if_pos rfl]
  · intro n a b hn
    rw [hco n a b]
    by_cases h : b ≤ a ∧ a ≤ n ∧ (n : Int) ≤ p
    · rw [if_pos h, sub_self, sub_self, sub_self,
        accumulateTerm_at_center e.sea_ hrho hpow w n a b h.1 h.2.1, if_neg (by omega), add_zero]
    · rw [if_neg h, add_zero]

theorem Accumulate_order_eq (e e2 : InversePowDistFarFieldExpansion R) (v : Fin 3 → R)
    (weight : R) (order : Int) (h : Accumulate e v weight order = some e2) :
    e2.order_ = max e.order_ order := by
  unfold Accumulate at h
  simp only [Option.bind_eq_bind, Option.pure_def, Option.bind_eq_some] at h
  obtain ⟨c, _, hc⟩ := h
  simp only [Option.some.injEq] at hc
  rw [← hc]

/-- A property that every returning run of the body carries from the state before to the state
after holds between the two ends of a returning loop. -/
theorem forRange_rel {σ : Type} (body : Nat → σ → Option σ) (Rel : σ → σ → Prop)
    (hrefl : ∀ s, Rel s s) (htrans : ∀ s1 s2 s3, Rel s1 s2 → Rel s2 s3 → Rel s1 s3)
    (hbody : ∀ i s s2, body i s = some s2 → Rel s s2) (cnt : Nat) :
    ∀ (lo : Nat) (s s2 : σ), forRange body lo cnt s = some s2 → Rel s s2 := by
  induction cnt with
  | zero =>
    intro lo s s2 h
    simp only [forRange, Option.some.injEq] at h
    rw [← h]
    exact hrefl s
  | succ c ih =>
    intro lo s s2 h
    simp only [forRange, Option.bind_eq_some] at h
    obtain ⟨s1, h1, h2⟩ := h
    exact htrans s s1 s2 (hbody lo s s1 h1) (ih (lo + 1) s1 s2 h2)

theorem AccumulateCoeffs_order_le (e e2 : InversePowDistFarFieldExpansion R)
    (data : GenMatrix R) (weights : ArrayList R) (begin_ end_ order : Int)
    (h : AccumulateCoeffs e data weights begin_ end_ order = some e2) :
    e.order_ ≤ e2.order_ := by
  unfold AccumulateCoeffs at h
  refine forRange_rel _ (fun s s2 : InversePowDistFarFieldExpansion R => s.order_ ≤ s2.order_)
    (fun s => le_refl _) (fun s1 s2 s3 h1 h2 => le_trans h1 h2) ?_ _ _ e e2 h
  intro i s s2 hb
  simp only [Option.bind_eq_bind, Option.bind_eq_some] at hb
  obtain ⟨v, _, w, _, hacc⟩ := hb
  rw [Accumulate_order_eq s s2 v w order hacc]
  exact le_max_left _ _

theorem TranslateFromFarField_order_le (e se e2 : InversePowDistFarFieldExpansion R)
    (h : TranslateFromFarField e se = some e2) : e.order_ ≤ e2.order_ := by
  unfold TranslateFromFarField at h
  by_cases h1 : se.order_ < 0
  · rw [if_pos h1] at h
    simp only [Option.some.injEq] at h
    rw [← h]
  · rw [if_neg h1] at h
    dsimp only at h
    split_ifs at h with h2
    · unfold TranslateFromFarFieldSameCenter at h
      simp only [Option.bind_eq_bind, Option.pure_def, Option.bind_eq_some] at h
      obtain ⟨c, _, hc⟩ := h
      simp only [Option.some.injEq] at hc
      rw [← hc]
    · unfold TranslateFromFarFieldGeneral at h
      simp only [Option.bind_eq_bind, Option.pure_def, Option.bind_eq_some] at h
      obtain ⟨c, _, hc⟩ := h
      simp only [Option.some.injEq] at hc
      rw [← hc]
      exact le_max_left _ _

theorem TranslateToLocal_orders (e e2 : InversePowDistFarFieldExpansion R)
    (se se2 : InversePowDistLocalExpansion R) (truncation_order : Int)
    (h : TranslateToLocal e se truncation_order = some (e2, se2)) :
    e2 = e ∧ se.order_ ≤ se2.order_ := by
  unfold TranslateToLocal at h
  by_cases h1 : e.order_ < 0
  · rw [if_pos h1] at h
    simp only [Option.some.injEq, Prod.mk.injEq] at h
    rw [← h.1, ← h.2]
    exact ⟨rfl, le_refl _⟩
  · rw [if_neg h1] at h
    dsimp only at h
    simp only [Option.bind_eq_some, Option.some.injEq, Prod.mk.injEq] at h
    obtain ⟨lm, _, he, hse⟩ := h
    rw [← he, ← hse]
    exact ⟨rfl, le_max_left _ _⟩

theorem Step_order_le (e e2 : InversePowDistFarFieldExpansion R) (h : Step e e2) :
    e.order_ ≤ e2.order_ := by
  cases h
  case accumulate v weight order h =>
    rw [Accumulate_order_eq e e2 v weight order h]
    exact le_max_left _ _
  case accumulateCoeffs data weights begin_ end_ order h =>
    exact AccumulateCoeffs_order_le e e2 data weights begin_ end_ order h
  case translateFromFarField se h => exact TranslateFromFarField_order_le e se e2 h
  case translateToLocal se se2 truncation_order h =>
    rw [(TranslateToLocal_orders e e2 se se2 truncation_order h).1]
  case evaluateField v order r h => exact le_refl _

theorem Reachable_order_ge (e : InversePowDistFarFieldExpansion R) (h : Reachable e) :
    -1 ≤ e.order_ := by
  induction h with
  | init center sea junk e h => rw [Init_order center sea junk e h]
  | step e e2 _ hstep ih => exact le_trans ih (Step_order_le e e2 hstep)

/-- C17. The order never decreases. Every returning call of `Accumulate`, `AccumulateCoeffs`,
`TranslateFromFarField` (on the receiver), `TranslateToLocal` or `EvaluateField` leaves the order
of the far-field expansion at least as large as it was; `TranslateToLocal` returns the
far-field expansion itself and an order of the target at least as large as before. Hence every
state reachable from `Init` has order at least -1, and a state of non-negative order never goes
back to the empty state. -/
theorem CurrentOrder_monotone (e e2 : InversePowDistFarFieldExpansion R) (hstep : Step e e2) :
    e.order_ ≤ e2.order_ ∧ (Reachable e → -1 ≤ e.order_ ∧ -1 ≤ e2.order_) ∧
      (0 ≤ e.order_ → 0 ≤ e2.order_) ∧
      (∀ (se se2 : InversePowDistLocalExpansion R) (truncation_order : Int)
        (e3 : InversePowDistFarFieldExpansion R),
        TranslateToLocal e se truncation_order = some (e3, se2) →
          e3 = e ∧ se.order_ ≤ se2.order_) := by
  have hle := Step_order_le e e2 hstep
  refine ⟨hle, fun hr => ?_, fun h0 => le_trans h0 hle, fun se se2 p e3 h => ?_⟩
  · have h1 := Reachable_order_ge e hr
    exact ⟨h1, le_trans h1 hle⟩
  · exact TranslateToLocal_orders e e3 se se2 p h

/-- C17 at the call of `Accumulate` with order 1 on an expansion of order 2. -/
theorem CurrentOrder_monotone_witness :
    ∃ e2, Accumulate (Sample.monopoleAt 2 (Sample.pt 0 0 0) 1 2) (Sample.pt 1 2 3) 5 1 = some e2 ∧
      (2 : Int) ≤ e2.order_ := by
  obtain ⟨e2, he2, _⟩ := Accumulate_effect (Sample.monopoleAt 2 (Sample.pt 0 0 0) 1 2)
    (Sample.pt 1 2 3) 5 1 (Sample_monopoleAt_valid 2 _ 1 2 (by decide) (by decide)) (by decide)
    (by decide)
  exact ⟨e2, he2, (CurrentOrder_monotone _ e2 (Step.accumulate _ e2 _ _ _ he2)).1⟩

/-! ### The offset that `TranslateToLocal` converts to spherical coordinates -/

/-- The terms that the inner loops reach are those of the index ranges of `generalSum`. -/
theorem visits_iff_mem (np ap bp n a b : Nat) :
    visits np ap bp n a b ↔ (n ∈ Finset.Ico 0 (np + 1) ∧
      a ∈ Finset.Ico (max 0 (sizeSub (sizeAdd ap n) np)) (min n ap + 1) ∧
      b ∈ Finset.Ico (max 0 (sizeSub (sizeAdd bp a) ap)) (min a bp + 1)) := by
  unfold visits
  simp only [Finset.mem_Ico, Nat.lt_succ_iff, Nat.zero_le, true_and]
  tauto

theorem sizeSub_of_le (x y : Nat) (h : y ≤ x) (hx : x < 2147483648) : sizeSub x y = x - y := by
  unfold sizeSub SIZE_MOD
  omega

theorem visits_bounds (np ap bp n a b : Nat) (hnp : (np : Int) ≤ INT_MAX) (hbp : bp ≤ ap)
    (hap : ap ≤ np) (hv : visits np ap bp n a b) :
    np ≤ ap + n ∧ ap + n - np ≤ a ∧ a ≤ n ∧ a ≤ ap ∧ ap ≤ bp + a ∧ bp + a - ap ≤ b ∧ b ≤ a ∧
      b ≤ bp ∧ n ≤ np := by
  obtain ⟨v1, v2, v3, v4, v5⟩ := hv
  unfold INT_MAX at hnp
  have ha : np ≤ ap + n ∧ ap + n - np ≤ a := by
    unfold sizeAdd sizeSub SIZE_MOD at v2
    omega
  have hb : ap ≤ bp + a ∧ bp + a - ap ≤ b := by
    unfold sizeAdd sizeSub SIZE_MOD at v4
    omega
  omega

/-- C19. Over the integers, with `0 ≤ b' ≤ a' ≤ n'` and `0 ≤ n ≤ n'`, a pair `(a, b)` lies in
the range `max(0, a'+n-n') ≤ a ≤ min(n, a')`, `max(0, b'+a-a') ≤ b ≤ min(a, b')` if and only if
`0 ≤ b ≤ a ≤ n` and `0 ≤ b'-b ≤ a'-a ≤ n'-n`. Every term that the inner loops of the general
branch reach, for a destination `b' ≤ a' ≤ n'` with `n'` an `int`, lies in that range: the source
index satisfies `b ≤ a ≤ n ≤ n'`, the index `(n'-n; a'-a, b'-b)` of the shift constant is lower
triangular, and the differences and the three exponents, computed in `size_t`, are the
non-negative integers `n'-n`, `a'-a`, `b'-b`, `n'-n-a'+a` and `a'-a-b'+b`. -/
theorem loop_bounds_valid (np ap bp n a b : Nat) (hnp : (np : Int) ≤ INT_MAX) (hbp : bp ≤ ap)
    (hap : ap ≤ np) :
    (∀ N A B m x y : Int, 0 ≤ B → B ≤ A → A ≤ N → 0 ≤ m → m ≤ N →
      ((max 0 (A + m - N) ≤ x ∧ x ≤ min m A ∧ max 0 (B + x - A) ≤ y ∧ y ≤ min x B) ↔
        (0 ≤ y ∧ y ≤ x ∧ x ≤ m ∧ 0 ≤ B - y ∧ B - y ≤ A - x ∧ A - x ≤ N - m))) ∧
    (visits np ap bp n a b →
      (max 0 ((ap : Int) + n - np) ≤ a ∧ (a : Int) ≤ min (n : Int) ap ∧
        max 0 ((bp : Int) + a - ap) ≤ b ∧ (b : Int) ≤ min (a : Int) bp) ∧
      b ≤ a ∧ a ≤ n ∧ n ≤ np ∧
      sizeSub bp b ≤ sizeSub ap a ∧ sizeSub ap a ≤ sizeSub np n ∧
      (sizeSub np n : Int) = np - n ∧ (sizeSub ap a : Int) = ap - a ∧
      (sizeSub bp b : Int) = bp - b ∧
      (sizeAdd (sizeSub (sizeSub np n) ap) a : Int) = np - n - ap + a ∧
      (sizeAdd (sizeSub (sizeSub ap a) bp) b : Int) = ap - a - bp + b) := by
  constructor
  · intro N A B m x y h1 h2 h3 h4 h5
    omega
  · intro hv
    obtain ⟨h1, h2, h3, h4, h5, h6, h7, h8, h9⟩ := visits_bounds np ap bp n a b hnp hbp hap hv
    unfold INT_MAX at hnp
    have e1 : sizeSub np n = np - n := sizeSub_of_le np n h9 (by omega)
    have e2 : sizeSub ap a = ap - a := sizeSub_of_le ap a h4 (by omega)
    have e3 : sizeSub bp b = bp - b := sizeSub_of_le bp b h8 (by omega)
    have e4 : sizeAdd (sizeSub (sizeSub np n) ap) a = np + a - (n + ap) := by
      rw [e1]
      unfold sizeAdd sizeSub SIZE_MOD
      omega
    have e5 : sizeAdd (sizeSub (sizeSub ap a) bp) b = ap + b - (a + bp) := by
      rw [e2]
      unfold sizeAdd sizeSub SIZE_MOD
      omega
    rw [e4, e5, e1, e2, e3]
    refine ⟨by omega, by omega, by omega, by omega, by omega, by omega, by omega, by omega,
      by omega, by omega, by omega⟩

/-- C19 at the destination `(2, 1, 1)` and the source index `(1, 1, 1)`, which the loops reach:
the exponent of the z-offset is `2 - 1 - 1 + 1`. -/
theorem loop_bounds_valid_witness :
    visits 2 1 1 1 1 1 ∧
      ((sizeAdd (sizeSub (sizeSub 2 1) 1) 1 : Nat) : Int) = ((2 : Nat) : Int) - (1 : Nat) -
        (1 : Nat) + (1 : Nat) :=
  ⟨by decide,
    ((loop_bounds_valid 2 1 1 1 1 1 (by decide) (by decide) (by decide)).2
      (by decide)).2.2.2.2.2.2.2.2.2.1⟩

/-! ### Coefficients beyond the order -/

/-- C20, evaluated. An expansion is initialised around `(0, 0, 0)`; a child is initialised
around the same center and receives one point of weight 1 at order 0; the first expansion
absorbs the child. It then has order -1 and the coefficient `(0, 0, 0) = 1`: a reachable state
that reports the empty order and holds a non-zero coefficient beyond it. -/
theorem empty_order_nonzero_coefficient :
    ∃ a0 child et,
      Init (Sample.pt 0 0 0) (Sample.aux 0 Sample.constants) (fun _ _ _ => 0) = some a0 ∧
      Accumulate a0 (Sample.pt 0 0 0) 1 0 = some child ∧
      TranslateFromFarField a0 child = some et ∧
      et.order_ = -1 ∧ et.coefficient 0 0 0 = ⟨1, 0⟩ ∧
      EvaluateField et (Sample.pt 1 2 3) 0 = some 0 := by
  obtain ⟨a0, ha0, _⟩ := Init_spec (Sample.pt 0 0 0) (Sample.aux 0 Sample.constants)
    (fun _ _ _ => 0) (by decide) (by decide)
  obtain ⟨hva, hsa, hca, hoa, hza⟩ := Init_valid _ _ _ a0 (by decide) (by decide) ha0
  obtain ⟨ch, hch, hvc, hsc, hcc, hoc, h000, _⟩ := Accumulate_center_effect a0 1 0 hva
    (le_refl _) (by rw [hsa]; decide) (by rw [hsa]; simp [Sample.aux])
    (by rw [hsa]; exact fun z => pow_zero z)
  have hshc : ch.coeffs_.Shaped a0.sea_.max_order.toNat := by
    have h := hvc.shaped
    rw [hsc] at h
    exact h
  have hordc : ch.order_ = 0 := by rw [hoc, hoa]; decide
  obtain ⟨et, het, _, hoe, _, _, hcoe⟩ := TranslateFromFarField_coincident a0 ch hva hshc
    (by rw [hordc]) (by rw [hordc, hsa]; decide)
    (fun i => by
      rw [hcc, sub_self, abs_zero]
      unfold DBL_EPSILON
      positivity)
  rw [hca] at hch
  refine ⟨a0, ch, et, ha0, hch, het, by rw [hoe, hoa], ?_, ?_⟩
  · rw [hcoe 0 0 0, if_pos ⟨by rw [hordc]; decide, le_refl _, le_refl _⟩, h000,
      hza 0 0 0 (Nat.zero_le _) (le_refl _) (le_refl _), zero_add, zero_add]
  · unfold EvaluateField
    rw [if_pos (by rw [hoe, hoa]; decide)]

end InversePowDistFarFieldExpansion

end Fastlib
